import Mathlib

/-!
Verification of the Smart Pack zone-clustering, bucket-aggregation and
route-sequencing core of the needacab christmas booking backend
(src/routes/budget.js).  JavaScript strings are modelled as Lean
strings over their character lists; a missing (null/undefined) field is
modelled as an Option; JavaScript numbers used for coordinates are
modelled as rationals, and the haversine distance function (a fixed
floating-point formula) is abstracted as an arbitrary distance function
parameter, so every theorem quantified over the distance function in
particular covers the haversine instance.
-/

/-- Character list of a string (the String.data field). -/
def chars (s : String) : List Char := s.data

/-- Model of JavaScript String.prototype.trim (whitespace at both ends). -/
def jsTrim (s : String) : String :=
  ⟨((s.data.dropWhile Char.isWhitespace).reverse.dropWhile Char.isWhitespace).reverse⟩

/-- Model of JavaScript String.prototype.toLowerCase (ASCII fold). -/
def jsLower (s : String) : String := ⟨s.data.map Char.toLower⟩

/-- Code-unit comparison of two characters. -/
def cmpCh (a b : Char) : Ordering := compare a.toNat b.toNat

/-- Lexicographic code-unit comparison of character lists, as performed by
JavaScript string comparison (and by localeCompare on the ASCII data handled
here). -/
def cmpChars : List Char → List Char → Ordering
  | [], [] => .eq
  | [], _ :: _ => .lt
  | _ :: _, [] => .gt
  | a :: as, b :: bs =>
    match cmpCh a b with
    | .eq => cmpChars as bs
    | o => o

/-- String comparison used for the output sort. -/
def strCmp (a b : String) : Ordering := cmpChars a.data b.data

/-! ## Zone clusterer (src/routes/budget.js lines 2002-2035) -/

/-- One entry of the ZONE_CLUSTERS table: a display label and the
case-insensitive zone-name aliases it covers. -/
structure ZoneCluster where
  label : String
  zones : List String
deriving DecidableEq, Repr

/-- The ZONE_CLUSTERS constant from the source: a plain literal, consumed
as-is; the source performs no validation of any kind on it. -/
def ZONE_CLUSTERS : List ZoneCluster :=
  [{ label := "Mutley / Greenbank / Lipson / St Judes / Mount Gould",
     zones := ["Mutley", "Greenbank", "St Judes, Lipson", "St Judes",
               "St Jude\x27s", "Lipson", "Mount Gould", "North Cross",
               "North Hill"] }]

/-- The nested for-loops of getZoneClusterName: scan the cluster list in
order and return the label of the first cluster one of whose aliases
lowercases to the given lowercased name. -/
def findClusterLabel (clusters : List ZoneCluster) (lower : String) : Option String :=
  match clusters with
  | [] => none
  | c :: rest =>
    if c.zones.any (fun z => lower = jsLower z) then some c.label
    else findClusterLabel rest lower

/-- getZoneClusterName generalised over the cluster table it consults
(the source reads the global ZONE_CLUSTERS directly). -/
def getZoneClusterNameWith (clusters : List ZoneCluster) (zoneName : String) : String :=
  let name := jsTrim zoneName
  if name = "" then "(unknown)"
  else
    match findClusterLabel clusters (jsLower name) with
    | some lbl => lbl
    | none => name

/-- getZoneClusterName from the source (budget.js lines 2020-2035). -/
def getZoneClusterName (zoneName : String) : String :=
  getZoneClusterNameWith ZONE_CLUSTERS zoneName

/-- Clusterer written from the words of the spec (section 4.1): trim; if
empty return the literal unknown label; otherwise return the label of the
first configured cluster containing a case-insensitive alias match, and if
no cluster matches return the trimmed original-case name. -/
def specClusterLabel (zoneName : String) : String :=
  let t := jsTrim zoneName
  if t = "" then "(unknown)"
  else
    match ZONE_CLUSTERS.find? (fun c => c.zones.any (fun a => jsLower t = jsLower a)) with
    | some c => c.label
    | none => t

/-! ## Route sequencer (src/routes/budget.js lines 912-990)

The sequencer works on address records carrying optional lat/lng
coordinates (a record whose lat or lng is not a number fails the
typeof guard in the source; that absence is modelled by Option).  The
haversineDistance function itself is a fixed floating-point formula; it
enters the algorithm only through the comparisons of its values, so it is
abstracted here as a distance-function parameter of type DistFn; theorems
quantify over it (restricted, where needed, to nonnegative functions,
which the mathematical haversine formula is). -/

/-- A stop/address record: optional coordinates plus an identifying
payload standing for all the other fields the source carries around. -/
structure Stop where
  lat : Option ℚ
  lng : Option ℚ
  tag : Nat
deriving DecidableEq, Repr

/-- Distance-function parameter standing for haversineDistance
(lat1 lng1 lat2 lng2). -/
def DistFn : Type := ℚ → ℚ → ℚ → ℚ → ℚ

/-- Hub latitude (DH_LAT in the source). -/
def DH_LAT : ℚ := 50.4195

/-- Hub longitude (DH_LNG in the source). -/
def DH_LNG : ℚ := -4.109

/-- The typeof-number guard of the source on both coordinates. -/
def hasCoords (s : Stop) : Bool := s.lat.isSome && s.lng.isSome

/-- Coordinates of a stop when both are present. -/
def coordsOf (s : Stop) : Option (ℚ × ℚ) :=
  match s.lat, s.lng with
  | some a, some b => some (a, b)
  | _, _ => none

/-- Distance from the current position to a candidate stop, as computed
inside the nearest-neighbour loops: none models both the skipped
candidate (failed typeof guard) and the NaN produced when the current
position itself has no numeric coordinates; in either case the strict
less-than test below is false, exactly as in JavaScript. -/
def distOpt (dist : DistFn) (cur : Option (ℚ × ℚ)) (s : Stop) : Option ℚ :=
  match cur, coordsOf s with
  | some (a, b), some (c, d) => some (dist a b c d)
  | _, _ => none

/-- Distance from a stop to the Hub as computed by the inbound seeding
loop: haversineDistance(s.lat, s.lng, DH_LAT, DH_LNG). -/
def distToHub (dist : DistFn) (s : Stop) : Option ℚ :=
  match s.lat, s.lng with
  | some a, some b => some (dist a b DH_LAT DH_LNG)
  | _, _ => none

/-- d < bestDist where bestDist starts at Infinity (none) and d may be
NaN (none, never an update). -/
def ltOpt (v : ℚ) (bD : Option ℚ) : Bool :=
  match bD with
  | none => true
  | some b => decide (v < b)

/-- The remaining.forEach scan of the nearest-neighbour loop: running
index i, current best index bIdx (initially 0) and best distance bD
(initially Infinity = none); an update happens only on a strictly
smaller computed distance. -/
def bestIdxAux (d : Stop → Option ℚ) : List Stop → Nat → Nat → Option ℚ → Nat
  | [], _, bIdx, _ => bIdx
  | s :: rest, i, bIdx, bD =>
    match d s with
    | none => bestIdxAux d rest (i + 1) bIdx bD
    | some v =>
      if ltOpt v bD then bestIdxAux d rest (i + 1) i (some v)
      else bestIdxAux d rest (i + 1) bIdx bD

/-- The seeding scan of the inbound branch: maxDist starts at -1 and an
update happens only on a strictly greater distance to the Hub. -/
def maxIdxAux (d : Stop → Option ℚ) : List Stop → Nat → Nat → ℚ → Nat
  | [], _, bIdx, _ => bIdx
  | s :: rest, i, bIdx, bM =>
    match d s with
    | none => maxIdxAux d rest (i + 1) bIdx bM
    | some v =>
      if bM < v then maxIdxAux d rest (i + 1) i v
      else maxIdxAux d rest (i + 1) bIdx bM

/-- The while (remaining.length) loop: each iteration selects the index
returned by the forEach scan (0 when no update fired), splices that stop
out, appends it, and moves the current position to its coordinates.  The
loop runs exactly remaining.length times, which is the fuel. -/
def walkFromAux (dist : DistFn) : Nat → Option (ℚ × ℚ) → List Stop → List Stop
  | 0, _, _ => []
  | n + 1, cur, l =>
    match l with
    | [] => []
    | _ :: _ =>
      let j := bestIdxAux (distOpt dist cur) l 0 0 none
      match l[j]? with
      | some next => next :: walkFromAux dist n (coordsOf next) (l.eraseIdx j)
      | none => []

/-- The greedy walk from a current position over a remaining list. -/
def walkFrom (dist : DistFn) (cur : Option (ℚ × ℚ)) (l : List Stop) : List Stop :=
  walkFromAux dist l.length cur l

/-- optimiseRoute from the source (budget.js lines 932-990).  Inputs of
length at most one are returned unchanged; direction "inbound" seeds
with the maxDist scan from the Hub and walks from the seed; any other
direction walks from the Hub position itself. -/
def optimiseRoute (dist : DistFn) (stops : List Stop) (direction : String) : List Stop :=
  if stops.length ≤ 1 then stops
  else if direction = "inbound" then
    let j := maxIdxAux (distToHub dist) stops 0 0 (-1)
    match stops[j]? with
    | some current => current :: walkFrom dist (coordsOf current) (stops.eraseIdx j)
    | none => []
  else
    walkFrom dist (some (DH_LAT, DH_LNG)) stops

/-- The JavaScript call with the direction argument omitted: the default
parameter value is "inbound". -/
def optimiseRouteDefault (dist : DistFn) (stops : List Stop) : List Stop :=
  optimiseRoute dist stops "inbound"

/-! ## Sequencer written from the words of the spec (section 4.3) -/

/-- Coordinates of a stop assumed present (used only under an
all-coordinates hypothesis). -/
def fromCoords (s : Stop) : ℚ × ℚ := (s.lat.getD 0, s.lng.getD 0)

/-- Distance from a current position to a stop, total form. -/
def walkDist (dist : DistFn) (c : ℚ × ℚ) (s : Stop) : ℚ :=
  dist c.1 c.2 (fromCoords s).1 (fromCoords s).2

/-- Distance from a stop to the Hub, total form. -/
def hubDistQ (dist : DistFn) (s : Stop) : ℚ :=
  dist (fromCoords s).1 (fromCoords s).2 DH_LAT DH_LNG

/-- Index of the first stop attaining the minimum of f over the list:
the minimum with ties broken by first-encountered order. -/
def firstMinIdx (f : Stop → ℚ) (l : List Stop) : Nat :=
  l.findIdx (fun s => decide (∀ t ∈ l, f s ≤ f t))

/-- Index of the first stop attaining the maximum of f over the list. -/
def firstMaxIdx (f : Stop → ℚ) (l : List Stop) : Nat :=
  l.findIdx (fun s => decide (∀ t ∈ l, f t ≤ f s))

/-- Spec walk: repeatedly append the remaining stop with minimum
distance from the current position (ties first-encountered). -/
def specWalkAux (dist : DistFn) : Nat → (ℚ × ℚ) → List Stop → List Stop
  | 0, _, _ => []
  | n + 1, c, l =>
    match l with
    | [] => []
    | _ :: _ =>
      let j := firstMinIdx (walkDist dist c) l
      match l[j]? with
      | some next => next :: specWalkAux dist n (fromCoords next) (l.eraseIdx j)
      | none => []

/-- Spec walk at its natural fuel. -/
def specWalk (dist : DistFn) (c : ℚ × ℚ) (l : List Stop) : List Stop :=
  specWalkAux dist l.length c l

/-- Spec inbound sequencing: seed with the stop of maximum Hub distance
(ties first-encountered), then the nearest-neighbour walk from it. -/
def specInbound (dist : DistFn) (stops : List Stop) : List Stop :=
  if stops.length ≤ 1 then stops
  else
    let j := firstMaxIdx (hubDistQ dist) stops
    match stops[j]? with
    | some seed => seed :: specWalk dist (fromCoords seed) (stops.eraseIdx j)
    | none => []

/-- Spec outbound sequencing: the nearest-neighbour walk whose virtual
starting position is the Hub itself. -/
def specOutbound (dist : DistFn) (stops : List Stop) : List Stop :=
  if stops.length ≤ 1 then stops
  else specWalk dist (DH_LAT, DH_LNG) stops

/-! ## Bucket aggregation (src/routes/budget.js lines 2122-2146)

The /api/reports/shift-groups pipeline delivers one group per
(date, time, zone) with a stop list; the aggregation loop merges groups
into buckets keyed by the string date + "__" + time + "__" + cluster.
A group field that arrived as null renders into the key via the
template literal as the text "null" and is stored as-is in the bucket. -/

/-- A zone group as produced by the aggregation pipeline ($group):
date, time and zone may be null (none); count and the address list are
always present in the model (the source guards them with fallbacks). -/
structure ZoneGroup where
  pickupDateISO : Option String
  onOffDutyTime : Option String
  zoneName : Option String
  count : Nat
  addresses : List Stop
deriving DecidableEq, Repr

/-- A cluster bucket accumulated by the loop. -/
structure Bucket where
  pickupDateISO : Option String
  onOffDutyTime : Option String
  clusterName : String
  zones : List String
  count : Nat
  addresses : List Stop
deriving DecidableEq, Repr

/-- Template-literal rendering of a possibly-null string field. -/
def jsStr : Option String → String
  | none => "null"
  | some s => s

/-- g.zoneName || "(unknown)": null and the empty string are falsy. -/
def jsZone (g : ZoneGroup) : String :=
  match g.zoneName with
  | none => "(unknown)"
  | some s => if s = "" then "(unknown)" else s

/-- The bucket key string of a group. -/
def groupKey (g : ZoneGroup) : String :=
  jsStr g.pickupDateISO ++ "__" ++ jsStr g.onOffDutyTime ++ "__"
    ++ getZoneClusterName (jsZone g)

/-- The freshly created bucket for a key not yet present. -/
def freshBucket (g : ZoneGroup) : Bucket :=
  { pickupDateISO := g.pickupDateISO
    onOffDutyTime := g.onOffDutyTime
    clusterName := getZoneClusterName (jsZone g)
    zones := []
    count := 0
    addresses := [] }

/-- Set.add on the insertion-ordered zone set. -/
def addZone (zs : List String) (z : String) : List String :=
  if z ∈ zs then zs else zs ++ [z]

/-- The mutations applied to the bucket of the key of g. -/
def updBucket (b : Bucket) (g : ZoneGroup) : Bucket :=
  { b with
    zones := addZone b.zones (jsZone g)
    count := b.count + g.count
    addresses := b.addresses ++ g.addresses }

/-- bucketMap.get(key) followed by the three mutations, applied to the
entry holding the key and leaving every other entry alone. -/
def updAtKey (key : String) (g : ZoneGroup) (kv : String × Bucket) : String × Bucket :=
  if kv.1 = key then (kv.1, updBucket kv.2 g) else kv

/-- One iteration of the aggregation loop over the insertion-ordered
key-to-bucket map (a JavaScript Map is modelled as an association list in
insertion order; Map.set on a new key appends). -/
def addGroup (bm : List (String × Bucket)) (g : ZoneGroup) : List (String × Bucket) :=
  let key := groupKey g
  let bm' := if bm.any (fun kv => decide (kv.1 = key)) then bm
             else bm ++ [(key, freshBucket g)]
  bm'.map (updAtKey key g)

/-- The whole aggregation loop: fold the groups into the bucket map and
read the buckets off in insertion order (Array.from(bucketMap.values())). -/
def aggregate (groups : List ZoneGroup) : List Bucket :=
  (groups.foldl addGroup []).map (fun kv => kv.2)

/-- The key triple a group notionally carries: raw date, raw time and
cluster label. -/
def rawTriple (g : ZoneGroup) : Option String × Option String × String :=
  (g.pickupDateISO, g.onOffDutyTime, getZoneClusterName (jsZone g))

/-- The key triple stored in a bucket. -/
def tripB (b : Bucket) : Option String × Option String × String :=
  (b.pickupDateISO, b.onOffDutyTime, b.clusterName)

/-- The key string a triple renders to. -/
def keyOfTriple : Option String × Option String × String → String
  | (d, t, c) => jsStr d ++ "__" ++ jsStr t ++ "__" ++ c

/-! ## Output assembly (src/routes/budget.js lines 2148-2171) -/

/-- toDDMMYY from the source (budget.js lines 1029-1033): a string
matching the anchored regex of four digits, dash, two digits, dash, two
digits is reformatted to DD-MM-YY; anything else is returned unchanged. -/
def toDDMMYY (iso : String) : String :=
  match iso.data with
  | [y1, y2, y3, y4, '-', m1, m2, '-', d1, d2] =>
    if (y1.isDigit && y2.isDigit && y3.isDigit && y4.isDigit
        && m1.isDigit && m2.isDigit && d1.isDigit && d2.isDigit) then
      ⟨[d1, d2, '-', m1, m2, '-', y3, y4]⟩
    else iso
  | _ => iso

/-- toDDMMYY applied to a possibly-null bucket date: !iso yields
iso || "" which is the empty string for null and for "". -/
def jsToDDMMYY : Option String → String
  | none => ""
  | some s => if s = "" then "" else toDDMMYY s

/-- A formatted route group of the response. -/
structure RouteGroup where
  pickupDateISO : String
  onOffDutyTime : Option String
  zoneName : String
  zones : List String
  count : Nat
  addresses : List Stop
deriving DecidableEq, Repr

/-- Insertion into a string list sorted by code-unit order (model of the
default Array.prototype.sort on the zones set). -/
def insertStr (x : String) : List String → List String
  | [] => [x]
  | y :: ys => if strCmp x y = Ordering.lt then x :: y :: ys else y :: insertStr x ys

/-- Array.from(set).sort() on the zone names. -/
def sortStrings (l : List String) : List String :=
  l.foldl (fun acc x => insertStr x acc) []

/-- The formatted.map step: format the date, keep time and cluster
label, sort the source zones and optimise the combined address route. -/
def formatBucket (dist : DistFn) (direction : String) (b : Bucket) : RouteGroup :=
  { pickupDateISO := jsToDDMMYY b.pickupDateISO
    onOffDutyTime := b.onOffDutyTime
    zoneName := b.clusterName
    zones := sortStrings b.zones
    count := b.count
    addresses := optimiseRoute dist b.addresses direction }

/-- The comparator of formatted.sort: compare the (already DD-MM-YY
formatted) date strings, then the times, then the cluster labels, each
by string comparison and only when unequal. -/
def cmpRG (a b : RouteGroup) : Ordering :=
  if a.pickupDateISO ≠ b.pickupDateISO then strCmp a.pickupDateISO b.pickupDateISO
  else if a.onOffDutyTime ≠ b.onOffDutyTime then strCmp (jsStr a.onOffDutyTime) (jsStr b.onOffDutyTime)
  else strCmp a.zoneName b.zoneName

/-- Stable insertion of a route group (a later-arriving equal element
stays after the existing ones, as in the stable engine sort). -/
def insertRG (x : RouteGroup) : List RouteGroup → List RouteGroup
  | [] => [x]
  | y :: ys => if cmpRG x y = Ordering.lt then x :: y :: ys else y :: insertRG x ys

/-- formatted.sort(comparator), modelled as a stable insertion sort. -/
def sortRG (l : List RouteGroup) : List RouteGroup :=
  l.foldl (fun acc x => insertRG x acc) []

/-- The whole shift-groups assembly after the pipeline: aggregate the
zone groups into cluster buckets, format each bucket (DD-MM-YY date,
optimised route) and sort the result with the comparator. -/
def assembleShiftGroups (dist : DistFn) (direction : String) (groups : List ZoneGroup) : List RouteGroup :=
  sortRG ((aggregate groups).map (formatBucket dist direction))

/-! ## Lemmas about the clusterer -/

theorem findClusterLabel_eq_find? (cs : List ZoneCluster) (lower : String) :
    findClusterLabel cs lower
      = (cs.find? (fun c => c.zones.any (fun a => lower = jsLower a))).map ZoneCluster.label := by
  induction cs with
  | nil => rfl
  | cons c rest ih =>
    by_cases h : c.zones.any (fun a => lower = jsLower a)
    · simp [findClusterLabel, List.find?_cons_of_pos, h]
    · simp only [Bool.not_eq_true] at h
      simp [findClusterLabel, List.find?_cons_of_neg, h, ih]

theorem jsLower_eq_empty_iff (s : String) : jsLower s = "" ↔ s = "" := by
  constructor
  · intro h
    cases s with
    | mk data =>
      cases data with
      | nil => rfl
      | cons c cs => simp [jsLower, String.ext_iff] at h
  · intro h
    subst h
    rfl

/-! ## Lemmas about the sequencer scans -/

theorem bestIdxAux_lt (d : Stop → Option ℚ) :
    ∀ (l : List Stop) (i b : Nat) (bD : Option ℚ),
      bestIdxAux d l i b bD < max (i + l.length) (b + 1) := by
  intro l
  induction l with
  | nil => intro i b bD; simp [bestIdxAux]
  | cons s rest ih =>
    intro i b bD
    simp only [bestIdxAux]
    cases d s with
    | none =>
      have := ih (i + 1) b bD
      simp only [List.length_cons]
      omega
    | some v =>
      cases hlt : ltOpt v bD
      · simp only [hlt, Bool.false_eq_true, if_false]
        have := ih (i + 1) b bD
        simp only [List.length_cons]
        omega
      · simp only [hlt, if_true]
        have := ih (i + 1) i (some v)
        simp only [List.length_cons]
        omega

theorem bestIdxAux_lt_length (d : Stop → Option ℚ) (l : List Stop) (h : l ≠ []) :
    bestIdxAux d l 0 0 none < l.length := by
  have hl : 1 ≤ l.length := by
    cases l with
    | nil => exact absurd rfl h
    | cons a t => simp
  have := bestIdxAux_lt d l 0 0 none
  omega

theorem maxIdxAux_lt (d : Stop → Option ℚ) :
    ∀ (l : List Stop) (i b : Nat) (bM : ℚ),
      maxIdxAux d l i b bM < max (i + l.length) (b + 1) := by
  intro l
  induction l with
  | nil => intro i b bM; simp [maxIdxAux]
  | cons s rest ih =>
    intro i b bM
    simp only [maxIdxAux]
    cases d s with
    | none =>
      have := ih (i + 1) b bM
      simp only [List.length_cons]
      omega
    | some v =>
      by_cases hlt : bM < v
      · simp only [hlt, if_true]
        have := ih (i + 1) i v
        simp only [List.length_cons]
        omega
      · simp only [hlt, if_false]
        have := ih (i + 1) b bM
        simp only [List.length_cons]
        omega

theorem maxIdxAux_lt_length (d : Stop → Option ℚ) (l : List Stop) (h : l ≠ []) (bM : ℚ) :
    maxIdxAux d l 0 0 bM < l.length := by
  have hl : 1 ≤ l.length := by
    cases l with
    | nil => exact absurd rfl h
    | cons a t => simp
  have := maxIdxAux_lt d l 0 0 bM
  omega

theorem cons_eraseIdx_perm {α : Type} :
    ∀ (l : List α) (j : Nat) (x : α), l[j]? = some x →
      (x :: l.eraseIdx j).Perm l := by
  intro l
  induction l with
  | nil => intro j x hx; simp at hx
  | cons a t ih =>
    intro j x hx
    cases j with
    | zero =>
      simp only [List.getElem?_cons_zero, Option.some.injEq] at hx
      subst hx
      simp [List.eraseIdx]
    | succ j =>
      simp only [List.getElem?_cons_succ] at hx
      simp only [List.eraseIdx_cons_succ]
      exact (List.Perm.swap a x _).trans ((ih j x hx).cons a)

theorem walkFromAux_cons (dist : DistFn) (n : Nat) (cur : Option (ℚ × ℚ))
    (l : List Stop) (hl : l ≠ []) (x : Stop)
    (hx : l[bestIdxAux (distOpt dist cur) l 0 0 none]? = some x) :
    walkFromAux dist (n + 1) cur l
      = x :: walkFromAux dist n (coordsOf x)
          (l.eraseIdx (bestIdxAux (distOpt dist cur) l 0 0 none)) := by
  cases l with
  | nil => exact absurd rfl hl
  | cons a t =>
    simp only [walkFromAux]
    rw [hx]

theorem walkFromAux_perm (dist : DistFn) :
    ∀ (n : Nat) (cur : Option (ℚ × ℚ)) (l : List Stop), n = l.length →
      (walkFromAux dist n cur l).Perm l := by
  intro n
  induction n with
  | zero =>
    intro cur l h
    have : l = [] := by
      cases l with
      | nil => rfl
      | cons a t => simp at h
    subst this
    simp [walkFromAux]
  | succ n ih =>
    intro cur l h
    have hl : l ≠ [] := by
      intro he
      subst he
      simp at h
    have hj : bestIdxAux (distOpt dist cur) l 0 0 none < l.length :=
      bestIdxAux_lt_length _ l hl
    have hx : l[bestIdxAux (distOpt dist cur) l 0 0 none]?
        = some (l.get ⟨bestIdxAux (distOpt dist cur) l 0 0 none, hj⟩) :=
      List.getElem?_eq_getElem hj
    rw [walkFromAux_cons dist n cur l hl _ hx]
    have hlen : n = (l.eraseIdx (bestIdxAux (distOpt dist cur) l 0 0 none)).length := by
      rw [List.length_eraseIdx]
      simp only [hj, if_true]
      omega
    exact ((ih _ _ hlen).cons _).trans (cons_eraseIdx_perm l _ _ hx)

theorem walkFrom_perm (dist : DistFn) (cur : Option (ℚ × ℚ)) (l : List Stop) :
    (walkFrom dist cur l).Perm l :=
  walkFromAux_perm dist l.length cur l rfl

theorem optimiseRoute_perm (dist : DistFn) (stops : List Stop) (direction : String) :
    (optimiseRoute dist stops direction).Perm stops := by
  unfold optimiseRoute
  by_cases h1 : stops.length ≤ 1
  · simp [h1]
  · simp only [h1, if_false]
    by_cases h2 : direction = "inbound"
    · simp only [h2, if_true]
      have hne : stops ≠ [] := by
        intro he
        subst he
        simp at h1
      have hj : maxIdxAux (distToHub dist) stops 0 0 (-1) < stops.length :=
        maxIdxAux_lt_length _ stops hne _
      have hx : stops[maxIdxAux (distToHub dist) stops 0 0 (-1)]?
          = some (stops.get ⟨maxIdxAux (distToHub dist) stops 0 0 (-1), hj⟩) :=
        List.getElem?_eq_getElem hj
      rw [hx]
      exact ((walkFrom_perm dist _ _).cons _).trans (cons_eraseIdx_perm stops _ _ hx)
    · simp only [h2, if_false]
      exact walkFrom_perm dist _ stops

theorem coordsOf_eq_some (s : Stop) (h : hasCoords s = true) :
    coordsOf s = some (fromCoords s) := by
  cases hla : s.lat with
  | none => simp [hasCoords, hla] at h
  | some a =>
    cases hlo : s.lng with
    | none => simp [hasCoords, hla, hlo] at h
    | some b => simp [coordsOf, fromCoords, hla, hlo]

theorem distOpt_none_of (dist : DistFn) (cur : Option (ℚ × ℚ)) (s : Stop)
    (h : hasCoords s = false) : distOpt dist cur s = none := by
  have hco : coordsOf s = none := by
    cases hla : s.lat with
    | none => cases hlo : s.lng <;> simp [coordsOf, hla]
    | some a =>
      cases hlo : s.lng with
      | none => simp [coordsOf, hla, hlo]
      | some b => simp [hasCoords, hla, hlo] at h
  cases cur with
  | none => simp [distOpt]
  | some c => simp [distOpt, hco]

theorem distOpt_isSome_iff (dist : DistFn) (c : ℚ × ℚ) (s : Stop) :
    (distOpt dist (some c) s).isSome = hasCoords s := by
  cases hla : s.lat with
  | none => simp [distOpt, coordsOf, hasCoords, hla]
  | some a =>
    cases hlo : s.lng with
    | none => simp [distOpt, coordsOf, hasCoords, hla, hlo]
    | some b => simp [distOpt, coordsOf, hasCoords, hla, hlo]

theorem distToHub_some_of (dist : DistFn) (s : Stop) (h : hasCoords s = true) :
    distToHub dist s = some (hubDistQ dist s) := by
  cases hla : s.lat with
  | none => simp [hasCoords, hla] at h
  | some a =>
    cases hlo : s.lng with
    | none => simp [hasCoords, hla, hlo] at h
    | some b => simp [distToHub, hubDistQ, fromCoords, hla, hlo]

theorem distToHub_none_of (dist : DistFn) (s : Stop) (h : hasCoords s = false) :
    distToHub dist s = none := by
  cases hla : s.lat with
  | none => simp [distToHub, hla]
  | some a =>
    cases hlo : s.lng with
    | none => simp [distToHub, hla, hlo]
    | some b => simp [hasCoords, hla, hlo] at h

theorem bestIdxAux_all_none (d : Stop → Option ℚ) :
    ∀ (l : List Stop) (i b : Nat) (bD : Option ℚ),
      (∀ s ∈ l, d s = none) → bestIdxAux d l i b bD = b := by
  intro l
  induction l with
  | nil => intro i b bD _; rfl
  | cons s rest ih =>
    intro i b bD h
    have hs : d s = none := h s (List.mem_cons_self s rest)
    simp only [bestIdxAux, hs]
    exact ih (i + 1) b bD (fun t ht => h t (List.mem_cons_of_mem s ht))

theorem bestIdxAux_cases (d : Stop → Option ℚ) :
    ∀ (l : List Stop) (i b : Nat) (bD : Option ℚ),
      bestIdxAux d l i b bD = b
        ∨ ∃ k, ∃ hk : k < l.length,
            bestIdxAux d l i b bD = i + k ∧ (d (l.get ⟨k, hk⟩)).isSome := by
  intro l
  induction l with
  | nil => intro i b bD; left; rfl
  | cons s rest ih =>
    intro i b bD
    cases hds : d s with
    | none =>
      rcases ih (i + 1) b bD with h | ⟨k, hk, he, hs⟩
      · left
        simpa [bestIdxAux, hds] using h
      · right
        refine ⟨k + 1, Nat.succ_lt_succ hk, ?_, ?_⟩
        · simp only [bestIdxAux, hds]
          omega
        · simpa using hs
    | some v =>
      cases hlt : ltOpt v bD with
      | false =>
        rcases ih (i + 1) b bD with h | ⟨k, hk, he, hs⟩
        · left
          simpa [bestIdxAux, hds, hlt] using h
        · right
          refine ⟨k + 1, Nat.succ_lt_succ hk, ?_, ?_⟩
          · simp only [bestIdxAux, hds, hlt, Bool.false_eq_true, if_false]
            omega
          · simpa using hs
      | true =>
        rcases ih (i + 1) i (some v) with h | ⟨k, hk, he, hs⟩
        · right
          refine ⟨0, Nat.succ_pos _, ?_, ?_⟩
          · simp only [bestIdxAux, hds, hlt, if_true]
            omega
          · simp [hds]
        · right
          refine ⟨k + 1, Nat.succ_lt_succ hk, ?_, ?_⟩
          · simp only [bestIdxAux, hds, hlt, if_true]
            omega
          · simpa using hs

theorem bestIdxAux_pick (d : Stop → Option ℚ) :
    ∀ (l : List Stop) (i b : Nat), (∃ s ∈ l, (d s).isSome) →
      ∃ k, ∃ hk : k < l.length,
        bestIdxAux d l i b none = i + k ∧ (d (l.get ⟨k, hk⟩)).isSome := by
  intro l
  induction l with
  | nil => intro i b h; simp at h
  | cons s rest ih =>
    intro i b h
    cases hds : d s with
    | some v =>
      have hstep : bestIdxAux d (s :: rest) i b none
          = bestIdxAux d rest (i + 1) i (some v) := by
        simp [bestIdxAux, hds, ltOpt]
      rcases bestIdxAux_cases d rest (i + 1) i (some v) with h2 | ⟨k, hk, he, hs⟩
      · refine ⟨0, Nat.succ_pos _, ?_, ?_⟩
        · rw [hstep, h2]; omega
        · simp [hds]
      · refine ⟨k + 1, Nat.succ_lt_succ hk, ?_, ?_⟩
        · rw [hstep, he]; omega
        · simpa using hs
    | none =>
      have hrest : ∃ t ∈ rest, (d t).isSome := by
        rcases h with ⟨t, hmem, hts⟩
        rcases List.mem_cons.mp hmem with rfl | hmem2
        · rw [hds] at hts; simp at hts
        · exact ⟨t, hmem2, hts⟩
      rcases ih (i + 1) b hrest with ⟨k, hk, he, hs⟩
      refine ⟨k + 1, Nat.succ_lt_succ hk, ?_, ?_⟩
      · simp only [bestIdxAux, hds]
        rw [he]; omega
      · simpa using hs

theorem maxIdxAux_cases (d : Stop → Option ℚ) :
    ∀ (l : List Stop) (i b : Nat) (bM : ℚ),
      maxIdxAux d l i b bM = b
        ∨ ∃ k, ∃ hk : k < l.length,
            maxIdxAux d l i b bM = i + k ∧ (d (l.get ⟨k, hk⟩)).isSome := by
  intro l
  induction l with
  | nil => intro i b bM; left; rfl
  | cons s rest ih =>
    intro i b bM
    cases hds : d s with
    | none =>
      rcases ih (i + 1) b bM with h | ⟨k, hk, he, hs⟩
      · left
        simpa [maxIdxAux, hds] using h
      · right
        refine ⟨k + 1, Nat.succ_lt_succ hk, ?_, ?_⟩
        · simp only [maxIdxAux, hds]
          omega
        · simpa using hs
    | some v =>
      by_cases hlt : bM < v
      · rcases ih (i + 1) i v with h | ⟨k, hk, he, hs⟩
        · right
          refine ⟨0, Nat.succ_pos _, ?_, ?_⟩
          · simp only [maxIdxAux, hds, hlt, if_true]
            omega
          · simp [hds]
        · right
          refine ⟨k + 1, Nat.succ_lt_succ hk, ?_, ?_⟩
          · simp only [maxIdxAux, hds, hlt, if_true]
            omega
          · simpa using hs
      · rcases ih (i + 1) b bM with h | ⟨k, hk, he, hs⟩
        · left
          simpa [maxIdxAux, hds, hlt] using h
        · right
          refine ⟨k + 1, Nat.succ_lt_succ hk, ?_, ?_⟩
          · simp only [maxIdxAux, hds, hlt, if_false]
            omega
          · simpa using hs

theorem maxIdxAux_pick (d : Stop → Option ℚ) :
    ∀ (l : List Stop) (i b : Nat) (bM : ℚ),
      (∃ s ∈ l, ∃ w, d s = some w ∧ bM < w) →
      ∃ k, ∃ hk : k < l.length,
        maxIdxAux d l i b bM = i + k ∧ (d (l.get ⟨k, hk⟩)).isSome := by
  intro l
  induction l with
  | nil => intro i b bM h; simp at h
  | cons s rest ih =>
    intro i b bM h
    cases hds : d s with
    | some v =>
      by_cases hlt : bM < v
      · have hstep : maxIdxAux d (s :: rest) i b bM
            = maxIdxAux d rest (i + 1) i v := by
          simp [maxIdxAux, hds, hlt]
        rcases maxIdxAux_cases d rest (i + 1) i v with h2 | ⟨k, hk, he, hs⟩
        · refine ⟨0, Nat.succ_pos _, ?_, ?_⟩
          · rw [hstep, h2]; omega
          · simp [hds]
        · refine ⟨k + 1, Nat.succ_lt_succ hk, ?_, ?_⟩
          · rw [hstep, he]; omega
          · simpa using hs
      · have hrest : ∃ t ∈ rest, ∃ w, d t = some w ∧ bM < w := by
          rcases h with ⟨t, hmem, w, htw, hw⟩
          rcases List.mem_cons.mp hmem with rfl | hmem2
          · rw [hds] at htw
            cases htw
            exact absurd hw hlt
          · exact ⟨t, hmem2, w, htw, hw⟩
        rcases ih (i + 1) b bM hrest with ⟨k, hk, he, hs⟩
        refine ⟨k + 1, Nat.succ_lt_succ hk, ?_, ?_⟩
        · simp only [maxIdxAux, hds, hlt, if_false]
          rw [he]; omega
        · simpa using hs
    | none =>
      have hrest : ∃ t ∈ rest, ∃ w, d t = some w ∧ bM < w := by
        rcases h with ⟨t, hmem, w, htw, hw⟩
        rcases List.mem_cons.mp hmem with rfl | hmem2
        · rw [hds] at htw; cases htw
        · exact ⟨t, hmem2, w, htw, hw⟩
      rcases ih (i + 1) b bM hrest with ⟨k, hk, he, hs⟩
      refine ⟨k + 1, Nat.succ_lt_succ hk, ?_, ?_⟩
      · simp only [maxIdxAux, hds]
        rw [he]; omega
      · simpa using hs

theorem walkFromAux_nocoords (dist : DistFn) :
    ∀ (n : Nat) (cur : Option (ℚ × ℚ)) (l : List Stop), n = l.length →
      (∀ s ∈ l, hasCoords s = false) → walkFromAux dist n cur l = l := by
  intro n
  induction n with
  | zero =>
    intro cur l h _
    cases l with
    | nil => rfl
    | cons a t => simp at h
  | succ n ih =>
    intro cur l h hnc
    cases l with
    | nil => simp at h
    | cons a t =>
      have hdn : ∀ s ∈ a :: t, distOpt dist cur s = none :=
        fun s hs => distOpt_none_of dist cur s (hnc s hs)
      have hj : bestIdxAux (distOpt dist cur) (a :: t) 0 0 none = 0 :=
        bestIdxAux_all_none _ _ 0 0 none hdn
      have hx : (a :: t)[bestIdxAux (distOpt dist cur) (a :: t) 0 0 none]? = some a := by
        rw [hj]
        simp
      rw [walkFromAux_cons dist n cur (a :: t) (by simp) a hx, hj]
      simp only [List.eraseIdx_cons_zero]
      rw [ih (coordsOf a) t (by simpa using h)
        (fun s hs => hnc s (List.mem_cons_of_mem a hs))]

theorem filter_eraseIdx_neg {α : Type} (p : α → Bool) :
    ∀ (l : List α) (j : Nat) (x : α), l[j]? = some x → p x = false →
      (l.eraseIdx j).filter p = l.filter p := by
  intro l
  induction l with
  | nil => intro j x hx _; simp at hx
  | cons a t ih =>
    intro j x hx hpx
    cases j with
    | zero =>
      simp only [List.getElem?_cons_zero, Option.some.injEq] at hx
      subst hx
      simp [List.eraseIdx_cons_zero, List.filter_cons, hpx]
    | succ j =>
      simp only [List.getElem?_cons_succ] at hx
      simp only [List.eraseIdx_cons_succ, List.filter_cons]
      rw [ih j x hx hpx]

theorem filter_eraseIdx_pos {α : Type} (p : α → Bool) :
    ∀ (l : List α) (j : Nat) (x : α), l[j]? = some x → p x = true →
      (l.filter p).Perm (x :: (l.eraseIdx j).filter p) := by
  intro l
  induction l with
  | nil => intro j x hx _; simp at hx
  | cons a t ih =>
    intro j x hx hpx
    cases j with
    | zero =>
      simp only [List.getElem?_cons_zero, Option.some.injEq] at hx
      subst hx
      simp [List.eraseIdx_cons_zero, List.filter_cons, hpx]
    | succ j =>
      simp only [List.getElem?_cons_succ] at hx
      simp only [List.eraseIdx_cons_succ, List.filter_cons]
      cases hpa : p a with
      | false =>
        simp only [Bool.false_eq_true, if_false]
        exact ih j x hx hpx
      | true =>
        simp only [if_true]
        exact ((ih j x hx hpx).cons a).trans (List.Perm.swap x a _)

theorem walkFromAux_decomp (dist : DistFn) :
    ∀ (n : Nat) (c : ℚ × ℚ) (l : List Stop), n = l.length →
      ∃ front, walkFromAux dist n (some c) l
          = front ++ l.filter (fun s => !hasCoords s)
        ∧ front.Perm (l.filter (fun s => hasCoords s)) := by
  intro n
  induction n with
  | zero =>
    intro c l h
    have : l = [] := by
      cases l with
      | nil => rfl
      | cons a t => simp at h
    subst this
    exact ⟨[], by simp [walkFromAux], by simp⟩
  | succ n ih =>
    intro c l h
    have hl : l ≠ [] := by
      intro he; subst he; simp at h
    by_cases hex : ∃ s ∈ l, hasCoords s = true
    · have hsome : ∃ s ∈ l, (distOpt dist (some c) s).isSome := by
        rcases hex with ⟨s, hs, hcs⟩
        exact ⟨s, hs, by rw [distOpt_isSome_iff]; exact hcs⟩
      rcases bestIdxAux_pick (distOpt dist (some c)) l 0 0 hsome with ⟨k, hk, he, hs⟩
      have hj : bestIdxAux (distOpt dist (some c)) l 0 0 none = k := by omega
      have hx : l[bestIdxAux (distOpt dist (some c)) l 0 0 none]? = some (l.get ⟨k, hk⟩) := by
        rw [hj]
        exact List.getElem?_eq_getElem hk
      set x := l.get ⟨k, hk⟩ with hxdef
      have hcx : hasCoords x = true := by
        rw [← distOpt_isSome_iff dist c x]
        exact hs
      have hco : coordsOf x = some (fromCoords x) := coordsOf_eq_some x hcx
      rw [walkFromAux_cons dist n (some c) l hl x hx, hj, hco]
      have hlen : n = (l.eraseIdx k).length := by
        rw [List.length_eraseIdx]
        simp only [hk, if_true]
        omega
      rcases ih (fromCoords x) (l.eraseIdx k) hlen with ⟨front, hfeq, hfperm⟩
      refine ⟨x :: front, ?_, ?_⟩
      · rw [hfeq]
        have hgx : l[k]? = some x := List.getElem?_eq_getElem hk
        rw [filter_eraseIdx_neg (fun s => !hasCoords s) l k x hgx (by simp [hcx])]
        simp
      · have hgx : l[k]? = some x := List.getElem?_eq_getElem hk
        exact ((hfperm.cons x).trans
          (filter_eraseIdx_pos (fun s => hasCoords s) l k x hgx hcx).symm)
    · push_neg at hex
      have hnc : ∀ s ∈ l, hasCoords s = false := by
        intro s hsm
        cases hcs : hasCoords s with
        | false => rfl
        | true => exact absurd hcs (hex s hsm)
      refine ⟨[], ?_, ?_⟩
      · rw [walkFromAux_nocoords dist (n + 1) (some c) l h hnc]
        simp only [List.nil_append]
        rw [List.filter_eq_self.mpr]
        intro a ha
        simp [hnc a ha]
      · rw [List.filter_eq_nil_iff.mpr]
        intro a ha
        simp [hnc a ha]

theorem hasCoords_of_distToHub_isSome (dist : DistFn) (s : Stop)
    (h : (distToHub dist s).isSome) : hasCoords s = true := by
  cases hcs : hasCoords s with
  | true => rfl
  | false => rw [distToHub_none_of dist s hcs] at h; simp at h

theorem optimiseRoute_decomp (dist : DistFn) (h0 : ∀ a b c d, 0 ≤ dist a b c d)
    (stops : List Stop) (hex : ∃ s ∈ stops, hasCoords s = true) (direction : String) :
    ∃ front, optimiseRoute dist stops direction
        = front ++ stops.filter (fun s => !hasCoords s)
      ∧ front.Perm (stops.filter (fun s => hasCoords s)) := by
  unfold optimiseRoute
  by_cases h1 : stops.length ≤ 1
  · cases stops with
    | nil => simp at hex
    | cons a t =>
      cases t with
      | nil =>
        have hca : hasCoords a = true := by
          rcases hex with ⟨s, hs, hcs⟩
          rcases List.mem_cons.mp hs with rfl | hn
          · exact hcs
          · simp at hn
        exact ⟨[a], by simp [hca], by simp [hca]⟩
      | cons b t2 => simp at h1
  · simp only [h1, if_false]
    by_cases h2 : direction = "inbound"
    · simp only [h2, if_true]
      have hpick : ∃ s ∈ stops, ∃ w, distToHub dist s = some w ∧ (-1 : ℚ) < w := by
        rcases hex with ⟨s, hs, hcs⟩
        refine ⟨s, hs, hubDistQ dist s, distToHub_some_of dist s hcs, ?_⟩
        have := h0 (fromCoords s).1 (fromCoords s).2 DH_LAT DH_LNG
        have hlt : (-1 : ℚ) < 0 := by norm_num
        calc (-1 : ℚ) < 0 := hlt
          _ ≤ _ := this
      rcases maxIdxAux_pick (distToHub dist) stops 0 0 (-1) hpick with ⟨k, hk, he, hsome⟩
      have hj : maxIdxAux (distToHub dist) stops 0 0 (-1) = k := by omega
      set x := stops.get ⟨k, hk⟩ with hxdef
      have hcx : hasCoords x = true := hasCoords_of_distToHub_isSome dist x hsome
      have hgx : stops[k]? = some x := List.getElem?_eq_getElem hk
      rw [hj, hgx]
      have hco : coordsOf x = some (fromCoords x) := coordsOf_eq_some x hcx
      dsimp only
      rw [hco]
      rcases walkFromAux_decomp dist (stops.eraseIdx k).length (fromCoords x)
        (stops.eraseIdx k) rfl with ⟨front, hfeq, hfperm⟩
      refine ⟨x :: front, ?_, ?_⟩
      · unfold walkFrom
        rw [hfeq,
          filter_eraseIdx_neg (fun s => !hasCoords s) stops k x hgx (by simp [hcx])]
        simp
      · exact (hfperm.cons x).trans
          (filter_eraseIdx_pos (fun s => hasCoords s) stops k x hgx hcx).symm
    · simp only [h2, if_false]
      unfold walkFrom
      exact walkFromAux_decomp dist stops.length (DH_LAT, DH_LNG) stops rfl

/-! ## Characterisation of the scans as first-encountered argmin/argmax -/

theorem distOpt_coord (dist : DistFn) (c : ℚ × ℚ) (s : Stop) (h : hasCoords s = true) :
    distOpt dist (some c) s = some (walkDist dist c s) := by
  cases hla : s.lat with
  | none => simp [hasCoords, hla] at h
  | some a =>
    cases hlo : s.lng with
    | none => simp [hasCoords, hla, hlo] at h
    | some b => simp [distOpt, coordsOf, walkDist, fromCoords, hla, hlo]

theorem bestIdxAux_congr (d1 d2 : Stop → Option ℚ) :
    ∀ (l : List Stop), (∀ s ∈ l, d1 s = d2 s) →
      ∀ (i b : Nat) (bD : Option ℚ), bestIdxAux d1 l i b bD = bestIdxAux d2 l i b bD := by
  intro l
  induction l with
  | nil => intro _ i b bD; rfl
  | cons s rest ih =>
    intro h i b bD
    have hs : d1 s = d2 s := h s (List.mem_cons_self s rest)
    have hr : ∀ t ∈ rest, d1 t = d2 t := fun t ht => h t (List.mem_cons_of_mem s ht)
    simp only [bestIdxAux, hs]
    cases d2 s with
    | none => exact ih hr (i + 1) b bD
    | some v =>
      by_cases hlt : ltOpt v bD = true
      · simp only [hlt, if_true]
        exact ih hr (i + 1) i (some v)
      · simp only [Bool.not_eq_true] at hlt
        simp only [hlt, Bool.false_eq_true, if_false]
        exact ih hr (i + 1) b bD

theorem maxIdxAux_congr (d1 d2 : Stop → Option ℚ) :
    ∀ (l : List Stop), (∀ s ∈ l, d1 s = d2 s) →
      ∀ (i b : Nat) (bM : ℚ), maxIdxAux d1 l i b bM = maxIdxAux d2 l i b bM := by
  intro l
  induction l with
  | nil => intro _ i b bM; rfl
  | cons s rest ih =>
    intro h i b bM
    have hs : d1 s = d2 s := h s (List.mem_cons_self s rest)
    have hr : ∀ t ∈ rest, d1 t = d2 t := fun t ht => h t (List.mem_cons_of_mem s ht)
    simp only [maxIdxAux, hs]
    cases d2 s with
    | none => exact ih hr (i + 1) b bM
    | some v =>
      by_cases hlt : bM < v
      · simp only [hlt, if_true]
        exact ih hr (i + 1) i v
      · simp only [hlt, if_false]
        exact ih hr (i + 1) b bM

theorem findIdx_congr_mem {α : Type} (p q : α → Bool) :
    ∀ (l : List α), (∀ x ∈ l, p x = q x) → l.findIdx p = l.findIdx q := by
  intro l
  induction l with
  | nil => intro _; rfl
  | cons a t ih =>
    intro h
    have ha : p a = q a := h a (List.mem_cons_self a t)
    simp only [List.findIdx_cons, ha]
    rw [ih (fun x hx => h x (List.mem_cons_of_mem a hx))]

theorem exists_min_stop (f : Stop → ℚ) :
    ∀ (l : List Stop), l ≠ [] → ∃ s ∈ l, ∀ t ∈ l, f s ≤ f t := by
  intro l
  induction l with
  | nil => intro h; exact absurd rfl h
  | cons a t ih =>
    intro _
    cases t with
    | nil =>
      refine ⟨a, List.mem_cons_self a [], ?_⟩
      intro s hs
      rcases List.mem_cons.mp hs with rfl | h2
      · exact le_refl _
      · simp at h2
    | cons b t2 =>
      rcases ih (by simp) with ⟨m, hm, hmin⟩
      by_cases ham : f a ≤ f m
      · refine ⟨a, List.mem_cons_self a _, ?_⟩
        intro s hs
        rcases List.mem_cons.mp hs with rfl | h2
        · exact le_refl _
        · exact le_trans ham (hmin s h2)
      · refine ⟨m, List.mem_cons_of_mem a hm, ?_⟩
        intro s hs
        rcases List.mem_cons.mp hs with rfl | h2
        · exact le_of_not_le ham
        · exact hmin s h2

theorem exists_max_stop (f : Stop → ℚ) :
    ∀ (l : List Stop), l ≠ [] → ∃ s ∈ l, ∀ t ∈ l, f t ≤ f s := by
  intro l hl
  rcases exists_min_stop (fun s => -(f s)) l hl with ⟨m, hm, hmin⟩
  exact ⟨m, hm, fun t ht => by have := hmin t ht; linarith⟩

theorem firstMinIdx_lt_length (f : Stop → ℚ) (l : List Stop) (hl : l ≠ []) :
    firstMinIdx f l < l.length := by
  rcases exists_min_stop f l hl with ⟨m, hm, hmin⟩
  exact List.findIdx_lt_length_of_exists ⟨m, hm, by simpa using hmin⟩

theorem firstMaxIdx_lt_length (f : Stop → ℚ) (l : List Stop) (hl : l ≠ []) :
    firstMaxIdx f l < l.length := by
  rcases exists_max_stop f l hl with ⟨m, hm, hmax⟩
  exact List.findIdx_lt_length_of_exists ⟨m, hm, by simpa using hmax⟩

theorem firstMin_cons_le (f : Stop → ℚ) (s : Stop) (m : List Stop)
    (h : ∀ t ∈ m, f s ≤ f t) : firstMinIdx f (s :: m) = 0 := by
  unfold firstMinIdx
  rw [List.findIdx_cons]
  have hp : decide (∀ t ∈ s :: m, f s ≤ f t) = true := by
    rw [decide_eq_true_eq]
    intro t ht
    rcases List.mem_cons.mp ht with rfl | h2
    · exact le_refl _
    · exact h t h2
  rw [hp]
  rfl

theorem firstMin_cons_lt (f : Stop → ℚ) (s : Stop) (m : List Stop)
    (h : ∃ t ∈ m, f t < f s) : firstMinIdx f (s :: m) = firstMinIdx f m + 1 := by
  rcases h with ⟨t0, ht0, hlt⟩
  unfold firstMinIdx
  rw [List.findIdx_cons]
  have hp : decide (∀ t ∈ s :: m, f s ≤ f t) = false := by
    rw [decide_eq_false_iff_not]
    intro hall
    exact absurd (hall t0 (List.mem_cons_of_mem s ht0)) (not_le_of_lt hlt)
  rw [hp]
  have hcongr : List.findIdx (fun x => decide (∀ t ∈ s :: m, f x ≤ f t)) m
      = List.findIdx (fun x => decide (∀ t ∈ m, f x ≤ f t)) m := by
    apply findIdx_congr_mem
    intro x hx
    rw [decide_eq_decide]
    constructor
    · intro hall t ht
      exact hall t (List.mem_cons_of_mem s ht)
    · intro hall t ht
      rcases List.mem_cons.mp ht with rfl | h2
      · exact le_of_lt (lt_of_le_of_lt (hall t0 ht0) hlt)
      · exact hall t h2
  show List.findIdx (fun x => decide (∀ t ∈ s :: m, f x ≤ f t)) m + 1
      = firstMinIdx f m + 1
  rw [hcongr]
  rfl

theorem firstMax_cons_le (f : Stop → ℚ) (s : Stop) (m : List Stop)
    (h : ∀ t ∈ m, f t ≤ f s) : firstMaxIdx f (s :: m) = 0 := by
  unfold firstMaxIdx
  rw [List.findIdx_cons]
  have hp : decide (∀ t ∈ s :: m, f t ≤ f s) = true := by
    rw [decide_eq_true_eq]
    intro t ht
    rcases List.mem_cons.mp ht with rfl | h2
    · exact le_refl _
    · exact h t h2
  rw [hp]
  rfl

theorem firstMax_cons_lt (f : Stop → ℚ) (s : Stop) (m : List Stop)
    (h : ∃ t ∈ m, f s < f t) : firstMaxIdx f (s :: m) = firstMaxIdx f m + 1 := by
  rcases h with ⟨t0, ht0, hlt⟩
  unfold firstMaxIdx
  rw [List.findIdx_cons]
  have hp : decide (∀ t ∈ s :: m, f t ≤ f s) = false := by
    rw [decide_eq_false_iff_not]
    intro hall
    exact absurd (hall t0 (List.mem_cons_of_mem s ht0)) (not_le_of_lt hlt)
  rw [hp]
  have hcongr : List.findIdx (fun x => decide (∀ t ∈ s :: m, f t ≤ f x)) m
      = List.findIdx (fun x => decide (∀ t ∈ m, f t ≤ f x)) m := by
    apply findIdx_congr_mem
    intro x hx
    rw [decide_eq_decide]
    constructor
    · intro hall t ht
      exact hall t (List.mem_cons_of_mem s ht)
    · intro hall t ht
      rcases List.mem_cons.mp ht with rfl | h2
      · exact le_of_lt (lt_of_lt_of_le hlt (hall t0 ht0))
      · exact hall t h2
  show List.findIdx (fun x => decide (∀ t ∈ s :: m, f t ≤ f x)) m + 1
      = firstMaxIdx f m + 1
  rw [hcongr]
  rfl

theorem bestIdxAux_noupd (f : Stop → ℚ) :
    ∀ (l : List Stop) (i b : Nat) (v : ℚ), (∀ t ∈ l, ¬ f t < v) →
      bestIdxAux (fun s => some (f s)) l i b (some v) = b := by
  intro l
  induction l with
  | nil => intro i b v _; rfl
  | cons s rest ih =>
    intro i b v h
    have hs : ¬ f s < v := h s (List.mem_cons_self s rest)
    have hlt : ltOpt (f s) (some v) = false := by
      simp [ltOpt, hs]
    simp only [bestIdxAux, hlt, Bool.false_eq_true, if_false]
    exact ih (i + 1) b v (fun t ht => h t (List.mem_cons_of_mem s ht))

theorem maxIdxAux_noupd (f : Stop → ℚ) :
    ∀ (l : List Stop) (i b : Nat) (v : ℚ), (∀ t ∈ l, ¬ v < f t) →
      maxIdxAux (fun s => some (f s)) l i b v = b := by
  intro l
  induction l with
  | nil => intro i b v _; rfl
  | cons s rest ih =>
    intro i b v h
    have hs : ¬ v < f s := h s (List.mem_cons_self s rest)
    simp only [maxIdxAux, hs, if_false]
    exact ih (i + 1) b v (fun t ht => h t (List.mem_cons_of_mem s ht))

theorem bestIdxAux_min (f : Stop → ℚ) :
    ∀ (l : List Stop) (i b : Nat) (v : ℚ), (∃ t ∈ l, f t < v) →
      bestIdxAux (fun s => some (f s)) l i b (some v) = i + firstMinIdx f l := by
  intro l
  induction l with
  | nil => intro i b v h; simp at h
  | cons s rest ih =>
    intro i b v h
    by_cases hsv : f s < v
    · have hlt : ltOpt (f s) (some v) = true := by simp [ltOpt, hsv]
      have hstep : bestIdxAux (fun x => some (f x)) (s :: rest) i b (some v)
          = bestIdxAux (fun x => some (f x)) rest (i + 1) i (some (f s)) := by
        simp only [bestIdxAux, hlt, if_true]
      rw [hstep]
      by_cases h2 : ∃ t ∈ rest, f t < f s
      · rw [ih (i + 1) i (f s) h2, firstMin_cons_lt f s rest h2]
        omega
      · push_neg at h2
        rw [bestIdxAux_noupd f rest (i + 1) i (f s) (fun t ht => not_lt_of_le (h2 t ht)),
          firstMin_cons_le f s rest (fun t ht => h2 t ht)]
        omega
    · have hlt : ltOpt (f s) (some v) = false := by simp [ltOpt, hsv]
      have hstep : bestIdxAux (fun x => some (f x)) (s :: rest) i b (some v)
          = bestIdxAux (fun x => some (f x)) rest (i + 1) b (some v) := by
        simp only [bestIdxAux, hlt, Bool.false_eq_true, if_false]
      rw [hstep]
      have h2 : ∃ t ∈ rest, f t < v := by
        rcases h with ⟨t0, ht0, hlt0⟩
        rcases List.mem_cons.mp ht0 with rfl | hmem
        · exact absurd hlt0 hsv
        · exact ⟨t0, hmem, hlt0⟩
      have h3 : ∃ t ∈ rest, f t < f s := by
        rcases h2 with ⟨t0, ht0, hlt0⟩
        exact ⟨t0, ht0, lt_of_lt_of_le hlt0 (le_of_not_lt hsv)⟩
      rw [ih (i + 1) b v h2, firstMin_cons_lt f s rest h3]
      omega

theorem bestIdxAux_min_entry (f : Stop → ℚ) (l : List Stop) (hl : l ≠ []) (i b : Nat) :
    bestIdxAux (fun s => some (f s)) l i b none = i + firstMinIdx f l := by
  cases l with
  | nil => exact absurd rfl hl
  | cons s rest =>
    have hstep : bestIdxAux (fun x => some (f x)) (s :: rest) i b none
        = bestIdxAux (fun x => some (f x)) rest (i + 1) i (some (f s)) := by
      simp only [bestIdxAux, ltOpt, if_true]
    rw [hstep]
    by_cases h2 : ∃ t ∈ rest, f t < f s
    · rw [bestIdxAux_min f rest (i + 1) i (f s) h2, firstMin_cons_lt f s rest h2]
      omega
    · push_neg at h2
      rw [bestIdxAux_noupd f rest (i + 1) i (f s) (fun t ht => not_lt_of_le (h2 t ht)),
        firstMin_cons_le f s rest (fun t ht => h2 t ht)]
      omega

theorem maxIdxAux_max (f : Stop → ℚ) :
    ∀ (l : List Stop) (i b : Nat) (v : ℚ), (∃ t ∈ l, v < f t) →
      maxIdxAux (fun s => some (f s)) l i b v = i + firstMaxIdx f l := by
  intro l
  induction l with
  | nil => intro i b v h; simp at h
  | cons s rest ih =>
    intro i b v h
    by_cases hsv : v < f s
    · have hstep : maxIdxAux (fun x => some (f x)) (s :: rest) i b v
          = maxIdxAux (fun x => some (f x)) rest (i + 1) i (f s) := by
        simp only [maxIdxAux, hsv, if_true]
      rw [hstep]
      by_cases h2 : ∃ t ∈ rest, f s < f t
      · rw [ih (i + 1) i (f s) h2, firstMax_cons_lt f s rest h2]
        omega
      · push_neg at h2
        rw [maxIdxAux_noupd f rest (i + 1) i (f s) (fun t ht => not_lt_of_le (h2 t ht)),
          firstMax_cons_le f s rest (fun t ht => h2 t ht)]
        omega
    · have hstep : maxIdxAux (fun x => some (f x)) (s :: rest) i b v
          = maxIdxAux (fun x => some (f x)) rest (i + 1) b v := by
        simp only [maxIdxAux, hsv, if_false]
      rw [hstep]
      have h2 : ∃ t ∈ rest, v < f t := by
        rcases h with ⟨t0, ht0, hlt0⟩
        rcases List.mem_cons.mp ht0 with rfl | hmem
        · exact absurd hlt0 hsv
        · exact ⟨t0, hmem, hlt0⟩
      have h3 : ∃ t ∈ rest, f s < f t := by
        rcases h2 with ⟨t0, ht0, hlt0⟩
        exact ⟨t0, ht0, lt_of_le_of_lt (le_of_not_lt hsv) hlt0⟩
      rw [ih (i + 1) b v h2, firstMax_cons_lt f s rest h3]
      omega

theorem specWalkAux_cons (dist : DistFn) (n : Nat) (c : ℚ × ℚ)
    (l : List Stop) (hl : l ≠ []) (x : Stop)
    (hx : l[firstMinIdx (walkDist dist c) l]? = some x) :
    specWalkAux dist (n + 1) c l
      = x :: specWalkAux dist n (fromCoords x)
          (l.eraseIdx (firstMinIdx (walkDist dist c) l)) := by
  cases l with
  | nil => exact absurd rfl hl
  | cons a t =>
    simp only [specWalkAux]
    rw [hx]

theorem walkFromAux_eq_spec (dist : DistFn) :
    ∀ (n : Nat) (c : ℚ × ℚ) (l : List Stop), n = l.length →
      (∀ s ∈ l, hasCoords s = true) →
      walkFromAux dist n (some c) l = specWalkAux dist n c l := by
  intro n
  induction n with
  | zero =>
    intro c l h _
    simp [walkFromAux, specWalkAux]
  | succ n ih =>
    intro c l h hc
    have hl : l ≠ [] := by
      intro he; subst he; simp at h
    have hcongr : bestIdxAux (distOpt dist (some c)) l 0 0 none
        = bestIdxAux (fun s => some (walkDist dist c s)) l 0 0 none :=
      bestIdxAux_congr _ _ l (fun s hs => distOpt_coord dist c s (hc s hs)) 0 0 none
    have hj : bestIdxAux (distOpt dist (some c)) l 0 0 none
        = firstMinIdx (walkDist dist c) l := by
      rw [hcongr, bestIdxAux_min_entry (walkDist dist c) l hl 0 0]
      omega
    have hjl : firstMinIdx (walkDist dist c) l < l.length :=
      firstMinIdx_lt_length _ l hl
    set x := l.get ⟨firstMinIdx (walkDist dist c) l, hjl⟩ with hxdef
    have hgx : l[firstMinIdx (walkDist dist c) l]? = some x :=
      List.getElem?_eq_getElem hjl
    have hgx2 : l[bestIdxAux (distOpt dist (some c)) l 0 0 none]? = some x := by
      rw [hj]; exact hgx
    have hcx : hasCoords x = true := hc x (List.get_mem l _ _)
    rw [walkFromAux_cons dist n (some c) l hl x hgx2, hj,
      specWalkAux_cons dist n c l hl x hgx, coordsOf_eq_some x hcx]
    have hlen : n = (l.eraseIdx (firstMinIdx (walkDist dist c) l)).length := by
      rw [List.length_eraseIdx]
      simp only [hjl, if_true]
      omega
    rw [ih (fromCoords x) _ hlen
      (fun s hs => hc s ((List.eraseIdx_sublist l _).subset hs))]

theorem optimiseRoute_inbound_spec (dist : DistFn) (h0 : ∀ a b c d, 0 ≤ dist a b c d)
    (stops : List Stop) (hc : ∀ s ∈ stops, hasCoords s = true) :
    optimiseRoute dist stops "inbound" = specInbound dist stops := by
  unfold optimiseRoute specInbound
  by_cases h1 : stops.length ≤ 1
  · simp [h1]
  · simp only [h1, if_false, if_true]
    have hl : stops ≠ [] := by
      intro he; subst he; simp at h1
    have hcongr : maxIdxAux (distToHub dist) stops 0 0 (-1)
        = maxIdxAux (fun s => some (hubDistQ dist s)) stops 0 0 (-1) :=
      maxIdxAux_congr _ _ stops (fun s hs => distToHub_some_of dist s (hc s hs)) 0 0 (-1)
    have hex : ∃ t ∈ stops, (-1 : ℚ) < hubDistQ dist t := by
      cases stops with
      | nil => exact absurd rfl hl
      | cons a t =>
        refine ⟨a, List.mem_cons_self a t, ?_⟩
        have := h0 (fromCoords a).1 (fromCoords a).2 DH_LAT DH_LNG
        have hlt : (-1 : ℚ) < 0 := by norm_num
        calc (-1 : ℚ) < 0 := hlt
          _ ≤ _ := this
    have hj : maxIdxAux (distToHub dist) stops 0 0 (-1)
        = firstMaxIdx (hubDistQ dist) stops := by
      rw [hcongr, maxIdxAux_max (hubDistQ dist) stops 0 0 (-1) hex]
      omega
    have hjl : firstMaxIdx (hubDistQ dist) stops < stops.length :=
      firstMaxIdx_lt_length _ stops hl
    set x := stops.get ⟨firstMaxIdx (hubDistQ dist) stops, hjl⟩ with hxdef
    have hgx : stops[firstMaxIdx (hubDistQ dist) stops]? = some x :=
      List.getElem?_eq_getElem hjl
    rw [hj, hgx]
    dsimp only
    have hcx : hasCoords x = true := hc x (List.get_mem stops _ _)
    rw [coordsOf_eq_some x hcx]
    unfold walkFrom specWalk
    rw [walkFromAux_eq_spec dist _ (fromCoords x) _ rfl
      (fun s hs => hc s ((List.eraseIdx_sublist stops _).subset hs))]

theorem optimiseRoute_outbound_spec (dist : DistFn)
    (stops : List Stop) (hc : ∀ s ∈ stops, hasCoords s = true) :
    optimiseRoute dist stops "outbound" = specOutbound dist stops := by
  unfold optimiseRoute specOutbound
  by_cases h1 : stops.length ≤ 1
  · simp [h1]
  · have hdir : ("outbound" : String) = "inbound" ↔ False := by
      simp
    simp only [h1, if_false, hdir, iff_false]
    unfold walkFrom specWalk
    exact walkFromAux_eq_spec dist stops.length (DH_LAT, DH_LNG) stops rfl hc

/-! ## Lemmas about the aggregation loop -/

/-- Addresses of a bucket list, concatenated in order. -/
def bucketsAddrs (bs : List Bucket) : List Stop :=
  (bs.map (fun b => b.addresses)).flatten

/-- Addresses of a group list, concatenated in order. -/
def groupsAddrs (gs : List ZoneGroup) : List Stop :=
  (gs.map (fun g => g.addresses)).flatten

/-- Addresses held in the bucket map. -/
def bmAddrs (bm : List (String × Bucket)) : List Stop :=
  (bm.map (fun kv => kv.2.addresses)).flatten

theorem fst_updAtKey (key : String) (g : ZoneGroup) (kv : String × Bucket) :
    (updAtKey key g kv).1 = kv.1 := by
  unfold updAtKey
  by_cases h : kv.1 = key <;> simp [h]

theorem tripB_updBucket (b : Bucket) (g : ZoneGroup) :
    tripB (updBucket b g) = tripB b := rfl

theorem tripB_freshBucket (g : ZoneGroup) :
    tripB (freshBucket g) = rawTriple g := rfl

theorem keyOfTriple_rawTriple (g : ZoneGroup) :
    keyOfTriple (rawTriple g) = groupKey g := rfl

theorem addGroup_keys (bm : List (String × Bucket)) (g : ZoneGroup) :
    (addGroup bm g).map Prod.fst
      = if groupKey g ∈ bm.map Prod.fst then bm.map Prod.fst
        else bm.map Prod.fst ++ [groupKey g] := by
  unfold addGroup
  have hmap : ∀ (l : List (String × Bucket)),
      (l.map (updAtKey (groupKey g) g)).map Prod.fst = l.map Prod.fst := by
    intro l
    rw [List.map_map]
    apply List.map_congr_left
    intro kv _
    exact fst_updAtKey (groupKey g) g kv
  by_cases hmem : groupKey g ∈ bm.map Prod.fst
  · have hany : bm.any (fun kv => decide (kv.1 = groupKey g)) = true := by
      rw [List.any_eq_true]
      rcases List.mem_map.mp hmem with ⟨kv, hkv, hfst⟩
      exact ⟨kv, hkv, by simp [hfst]⟩
    simp only [hany, if_true, hmem]
    exact hmap bm
  · have hany : bm.any (fun kv => decide (kv.1 = groupKey g)) = false := by
      rw [List.any_eq_false]
      intro kv hkv
      simp only [decide_eq_true_eq]
      intro hfst
      exact hmem (List.mem_map.mpr ⟨kv, hkv, hfst⟩)
    simp only [hany, Bool.false_eq_true, if_false, hmem]
    rw [hmap (bm ++ [(groupKey g, freshBucket g)])]
    simp

theorem addGroup_keysNodup (bm : List (String × Bucket)) (g : ZoneGroup)
    (h : (bm.map Prod.fst).Nodup) : ((addGroup bm g).map Prod.fst).Nodup := by
  rw [addGroup_keys]
  by_cases hmem : groupKey g ∈ bm.map Prod.fst
  · simpa [hmem] using h
  · simp only [hmem, if_false]
    rw [List.nodup_append]
    refine ⟨h, List.nodup_singleton _, ?_⟩
    intro a ha hb
    simp only [List.mem_singleton] at hb
    subst hb
    exact hmem ha

theorem addGroup_mem (bm : List (String × Bucket)) (g : ZoneGroup)
    (kv2 : String × Bucket) (h : kv2 ∈ addGroup bm g) :
    (∃ kv ∈ bm, kv2.1 = kv.1 ∧ tripB kv2.2 = tripB kv.2)
      ∨ (kv2.1 = groupKey g ∧ tripB kv2.2 = rawTriple g) := by
  unfold addGroup at h
  by_cases hany : bm.any (fun kv => decide (kv.1 = groupKey g)) = true
  · simp only [hany, if_true] at h
    rcases List.mem_map.mp h with ⟨kv, hkv, hupd⟩
    left
    refine ⟨kv, hkv, ?_, ?_⟩
    · rw [← hupd, fst_updAtKey]
    · rw [← hupd]
      unfold updAtKey
      by_cases hk : kv.1 = groupKey g <;> simp [hk, tripB_updBucket]
  · simp only [Bool.not_eq_true] at hany
    simp only [hany, Bool.false_eq_true, if_false] at h
    rcases List.mem_map.mp h with ⟨kv, hkv, hupd⟩
    rcases List.mem_append.mp hkv with hin | hsing
    · left
      refine ⟨kv, hin, ?_, ?_⟩
      · rw [← hupd, fst_updAtKey]
      · rw [← hupd]
        unfold updAtKey
        by_cases hk : kv.1 = groupKey g <;> simp [hk, tripB_updBucket]
    · right
      simp only [List.mem_singleton] at hsing
      subst hsing
      constructor
      · rw [← hupd, fst_updAtKey]
      · rw [← hupd]
        unfold updAtKey
        simp [tripB_updBucket, tripB_freshBucket]

theorem foldl_addGroup_mem (gs : List ZoneGroup) :
    ∀ (bm : List (String × Bucket)) (kv2 : String × Bucket),
      kv2 ∈ gs.foldl addGroup bm →
      (∃ kv ∈ bm, kv2.1 = kv.1 ∧ tripB kv2.2 = tripB kv.2)
        ∨ (∃ g ∈ gs, kv2.1 = groupKey g ∧ tripB kv2.2 = rawTriple g) := by
  induction gs with
  | nil =>
    intro bm kv2 h
    left
    exact ⟨kv2, h, rfl, rfl⟩
  | cons g rest ih =>
    intro bm kv2 h
    simp only [List.foldl_cons] at h
    rcases ih (addGroup bm g) kv2 h with ⟨kv, hkv, hk, ht⟩ | ⟨g2, hg2, hk, ht⟩
    · rcases addGroup_mem bm g kv hkv with ⟨kv0, hkv0, hk0, ht0⟩ | ⟨hkg, htg⟩
      · left
        exact ⟨kv0, hkv0, hk.trans hk0, ht.trans ht0⟩
      · right
        exact ⟨g, List.mem_cons_self g rest, hk.trans hkg, ht.trans htg⟩
    · right
      exact ⟨g2, List.mem_cons_of_mem g hg2, hk, ht⟩

theorem foldl_addGroup_keysNodup (gs : List ZoneGroup) :
    ∀ (bm : List (String × Bucket)), (bm.map Prod.fst).Nodup →
      ((gs.foldl addGroup bm).map Prod.fst).Nodup := by
  induction gs with
  | nil => intro bm h; exact h
  | cons g rest ih =>
    intro bm h
    simp only [List.foldl_cons]
    exact ih (addGroup bm g) (addGroup_keysNodup bm g h)

theorem addGroup_persist (bm : List (String × Bucket)) (g : ZoneGroup)
    (kv : String × Bucket) (h : kv ∈ bm) :
    ∃ kv2 ∈ addGroup bm g, kv2.1 = kv.1
      ∧ ∀ a ∈ kv.2.addresses, a ∈ kv2.2.addresses := by
  have hmem : kv ∈ (if bm.any (fun kv => decide (kv.1 = groupKey g)) then bm
      else bm ++ [(groupKey g, freshBucket g)]) := by
    by_cases hany : bm.any (fun kv => decide (kv.1 = groupKey g)) = true
    · simpa [hany] using h
    · simp only [Bool.not_eq_true] at hany
      simp only [hany, Bool.false_eq_true, if_false]
      exact List.mem_append_left _ h
  refine ⟨updAtKey (groupKey g) g kv, List.mem_map_of_mem _ hmem, fst_updAtKey _ _ kv, ?_⟩
  intro a ha
  unfold updAtKey
  by_cases hk : kv.1 = groupKey g
  · simp only [hk, if_true]
    exact List.mem_append_left _ ha
  · simp only [hk, if_false]
    exact ha

theorem addGroup_lands (bm : List (String × Bucket)) (g : ZoneGroup) :
    ∃ kv2 ∈ addGroup bm g, kv2.1 = groupKey g
      ∧ ∀ a ∈ g.addresses, a ∈ kv2.2.addresses := by
  by_cases hany : bm.any (fun kv => decide (kv.1 = groupKey g)) = true
  · rcases List.any_eq_true.mp hany with ⟨kv, hkv, hdec⟩
    simp only [decide_eq_true_eq] at hdec
    refine ⟨updAtKey (groupKey g) g kv, ?_, ?_, ?_⟩
    · unfold addGroup
      simp only [hany, if_true]
      exact List.mem_map_of_mem _ hkv
    · rw [fst_updAtKey]
      exact hdec
    · intro a ha
      unfold updAtKey
      simp only [hdec, if_true]
      exact List.mem_append_right _ ha
  · simp only [Bool.not_eq_true] at hany
    refine ⟨updAtKey (groupKey g) g (groupKey g, freshBucket g), ?_, ?_, ?_⟩
    · unfold addGroup
      simp only [hany, Bool.false_eq_true, if_false]
      exact List.mem_map_of_mem _ (List.mem_append_right _ (List.mem_singleton.mpr rfl))
    · rw [fst_updAtKey]
    · intro a ha
      unfold updAtKey updBucket freshBucket
      simpa using ha

theorem foldl_addGroup_persist (gs : List ZoneGroup) :
    ∀ (bm : List (String × Bucket)) (kv : String × Bucket), kv ∈ bm →
      ∃ kv2 ∈ gs.foldl addGroup bm, kv2.1 = kv.1
        ∧ ∀ a ∈ kv.2.addresses, a ∈ kv2.2.addresses := by
  induction gs with
  | nil =>
    intro bm kv h
    exact ⟨kv, h, rfl, fun a ha => ha⟩
  | cons g rest ih =>
    intro bm kv h
    simp only [List.foldl_cons]
    rcases addGroup_persist bm g kv h with ⟨kv1, hkv1, hk1, hs1⟩
    rcases ih (addGroup bm g) kv1 hkv1 with ⟨kv2, hkv2, hk2, hs2⟩
    exact ⟨kv2, hkv2, hk2.trans hk1, fun a ha => hs2 a (hs1 a ha)⟩

theorem foldl_addGroup_lands (gs : List ZoneGroup) :
    ∀ (bm : List (String × Bucket)), ∀ g ∈ gs,
      ∃ kv ∈ gs.foldl addGroup bm, kv.1 = groupKey g
        ∧ ∀ a ∈ g.addresses, a ∈ kv.2.addresses := by
  induction gs with
  | nil => intro bm g h; simp at h
  | cons g0 rest ih =>
    intro bm g hg
    simp only [List.foldl_cons]
    rcases List.mem_cons.mp hg with rfl | hmem
    · rcases addGroup_lands bm g with ⟨kv1, hkv1, hk1, hs1⟩
      rcases foldl_addGroup_persist rest (addGroup bm g) kv1 hkv1 with ⟨kv2, hkv2, hk2, hs2⟩
      exact ⟨kv2, hkv2, hk2.trans hk1, fun a ha => hs2 a (hs1 a ha)⟩
    · exact ih (addGroup bm g0) g hmem

theorem map_updAtKey_id (key : String) (g : ZoneGroup) :
    ∀ (l : List (String × Bucket)), (∀ kv ∈ l, kv.1 ≠ key) →
      l.map (updAtKey key g) = l := by
  intro l
  induction l with
  | nil => intro _; rfl
  | cons kv rest ih =>
    intro h
    have hk : kv.1 ≠ key := h kv (List.mem_cons_self kv rest)
    simp only [List.map_cons]
    rw [ih (fun kv2 h2 => h kv2 (List.mem_cons_of_mem kv h2))]
    unfold updAtKey
    simp [hk]

theorem bmAddrs_cons (kv : String × Bucket) (rest : List (String × Bucket)) :
    bmAddrs (kv :: rest) = kv.2.addresses ++ bmAddrs rest := by
  simp [bmAddrs]

theorem bmAddrs_updAtKey (key : String) (g : ZoneGroup) :
    ∀ (bm : List (String × Bucket)), key ∈ bm.map Prod.fst →
      (bm.map Prod.fst).Nodup →
      (bmAddrs (bm.map (updAtKey key g))).Perm (bmAddrs bm ++ g.addresses) := by
  intro bm
  induction bm with
  | nil => intro h _; simp at h
  | cons kv rest ih =>
    intro hmem hnd
    simp only [List.map_cons, List.nodup_cons] at hnd
    rcases hnd with ⟨hnotin, hndrest⟩
    by_cases hk : kv.1 = key
    · have hrest : ∀ kv2 ∈ rest, kv2.1 ≠ key := by
        intro kv2 h2 he
        exact hnotin (List.mem_map.mpr ⟨kv2, h2, he.trans hk.symm⟩)
      simp only [List.map_cons]
      rw [map_updAtKey_id key g rest hrest]
      unfold updAtKey
      simp only [hk, if_true]
      rw [bmAddrs_cons, bmAddrs_cons]
      show ((updBucket kv.2 g).addresses ++ bmAddrs rest).Perm _
      have haddr : (updBucket kv.2 g).addresses = kv.2.addresses ++ g.addresses := rfl
      rw [haddr, List.append_assoc, List.append_assoc]
      exact List.Perm.append_left _ List.perm_append_comm
    · have hmem2 : key ∈ rest.map Prod.fst := by
        rcases List.mem_cons.mp hmem with he | h2
        · exact absurd he.symm hk
        · exact h2
      simp only [List.map_cons]
      have hid : updAtKey key g kv = kv := by
        unfold updAtKey
        simp [hk]
      rw [hid, bmAddrs_cons, bmAddrs_cons, List.append_assoc]
      exact List.Perm.append_left _ (ih hmem2 hndrest)

theorem addGroup_addrs (bm : List (String × Bucket)) (g : ZoneGroup)
    (h : (bm.map Prod.fst).Nodup) :
    (bmAddrs (addGroup bm g)).Perm (bmAddrs bm ++ g.addresses) := by
  unfold addGroup
  by_cases hany : bm.any (fun kv => decide (kv.1 = groupKey g)) = true
  · simp only [hany, if_true]
    have hmem : groupKey g ∈ bm.map Prod.fst := by
      rcases List.any_eq_true.mp hany with ⟨kv, hkv, hdec⟩
      simp only [decide_eq_true_eq] at hdec
      exact List.mem_map.mpr ⟨kv, hkv, hdec⟩
    exact bmAddrs_updAtKey (groupKey g) g bm hmem h
  · simp only [Bool.not_eq_true] at hany
    simp only [hany, Bool.false_eq_true, if_false]
    have hnone : ∀ kv ∈ bm, kv.1 ≠ groupKey g := by
      intro kv hkv he
      have := List.any_eq_false.mp hany kv hkv
      simp [he] at this
    rw [List.map_append, map_updAtKey_id (groupKey g) g bm hnone]
    have hfresh : (updAtKey (groupKey g) g (groupKey g, freshBucket g)).2.addresses
        = g.addresses := by
      unfold updAtKey updBucket freshBucket
      simp
    unfold bmAddrs
    rw [List.map_append, List.flatten_append]
    simp only [List.map_cons, List.map_nil, List.flatten_cons, List.flatten_nil]
    rw [hfresh]
    simp [bmAddrs]

theorem groupsAddrs_cons (g : ZoneGroup) (rest : List ZoneGroup) :
    groupsAddrs (g :: rest) = g.addresses ++ groupsAddrs rest := by
  simp [groupsAddrs]

theorem foldl_addGroup_addrs (gs : List ZoneGroup) :
    ∀ (bm : List (String × Bucket)), (bm.map Prod.fst).Nodup →
      (bmAddrs (gs.foldl addGroup bm)).Perm (bmAddrs bm ++ groupsAddrs gs) := by
  induction gs with
  | nil =>
    intro bm _
    simp [groupsAddrs]
  | cons g rest ih =>
    intro bm hnd
    simp only [List.foldl_cons]
    have h1 := ih (addGroup bm g) (addGroup_keysNodup bm g hnd)
    have h2 := addGroup_addrs bm g hnd
    rw [groupsAddrs_cons]
    have h3 : (bmAddrs bm ++ g.addresses) ++ groupsAddrs rest
        = bmAddrs bm ++ (g.addresses ++ groupsAddrs rest) := List.append_assoc _ _ _
    exact h3 ▸ (h1.trans (h2.append_right _))

theorem aggregate_addrs_perm (gs : List ZoneGroup) :
    (bucketsAddrs (aggregate gs)).Perm (groupsAddrs gs) := by
  have h1 : bucketsAddrs (aggregate gs) = bmAddrs (gs.foldl addGroup []) := by
    unfold aggregate bucketsAddrs bmAddrs
    rw [List.map_map]
    rfl
  rw [h1]
  have h2 := foldl_addGroup_addrs gs [] (by simp)
  simpa [bmAddrs] using h2

theorem aggregate_entry_origin (gs : List ZoneGroup) (kv : String × Bucket)
    (h : kv ∈ gs.foldl addGroup []) :
    ∃ g ∈ gs, kv.1 = groupKey g ∧ tripB kv.2 = rawTriple g := by
  rcases foldl_addGroup_mem gs [] kv h with ⟨kv0, hkv0, _, _⟩ | hg
  · simp at hkv0
  · exact hg

theorem aggregate_trip_pairwise (gs : List ZoneGroup) :
    (aggregate gs).Pairwise (fun b1 b2 => tripB b1 ≠ tripB b2) := by
  have hnd : ((gs.foldl addGroup []).map Prod.fst).Nodup :=
    foldl_addGroup_keysNodup gs [] (by simp)
  have hB : ∀ kv ∈ gs.foldl addGroup [], kv.1 = keyOfTriple (tripB kv.2) := by
    intro kv hkv
    rcases aggregate_entry_origin gs kv hkv with ⟨g, _, hk, ht⟩
    rw [hk, ht, keyOfTriple_rawTriple]
  have hpair : (gs.foldl addGroup []).Pairwise (fun kv1 kv2 => kv1.1 ≠ kv2.1) := by
    rw [List.Nodup, List.pairwise_map] at hnd
    exact hnd
  unfold aggregate
  rw [List.pairwise_map]
  refine hpair.imp_of_mem ?_
  intro kv1 kv2 h1 h2 hne he
  exact hne (by rw [hB kv1 h1, hB kv2 h2, he])

theorem aggregate_lands (gs : List ZoneGroup)
    (hinj : ∀ g1 ∈ gs, ∀ g2 ∈ gs, groupKey g1 = groupKey g2 → rawTriple g1 = rawTriple g2) :
    ∀ g ∈ gs, ∃ b ∈ aggregate gs, tripB b = rawTriple g
      ∧ ∀ a ∈ g.addresses, a ∈ b.addresses := by
  intro g hg
  rcases foldl_addGroup_lands gs [] g hg with ⟨kv, hkv, hk, hs⟩
  rcases aggregate_entry_origin gs kv hkv with ⟨g2, hg2, hk2, ht2⟩
  have hkeys : groupKey g2 = groupKey g := by rw [← hk2, hk]
  have htrip : tripB kv.2 = rawTriple g := by
    rw [ht2, hinj g2 hg2 g hg hkeys]
  exact ⟨kv.2, List.mem_map_of_mem _ hkv, htrip, hs⟩

/-! ## Concrete inputs used by witnesses and counterexamples -/

/-- A concrete distance function (identically zero, trivially
nonnegative); used to instantiate theorems that hold for every distance
function, in particular for the haversine instance. -/
def zeroDist : DistFn := fun _ _ _ _ => 0

/-- A coordinate-less stop. -/
def stopNC0 : Stop := ⟨none, none, 0⟩

/-- Another coordinate-less stop. -/
def stopNC1 : Stop := ⟨none, none, 1⟩

/-- A stop with coordinates. -/
def stopC0 : Stop := ⟨some 1, some 2, 0⟩

/-- Another stop with coordinates. -/
def stopC1 : Stop := ⟨some 3, some 5, 1⟩

/-- A third stop with coordinates. -/
def stopC2 : Stop := ⟨some 4, some 4, 2⟩

/-- A December 1st group (later ISO date, smaller DD-MM-YY string). -/
def grpDec : ZoneGroup := ⟨some "2025-12-01", some "08:00", some "ZoneA", 1, []⟩

/-- A November 2nd group (earlier ISO date, larger DD-MM-YY string). -/
def grpNov : ZoneGroup := ⟨some "2025-11-02", some "08:00", some "ZoneB", 1, []⟩

/-- First group of the composite-key collision pair. -/
def grpColX : ZoneGroup := ⟨some "d", some "t__x", some "Ca", 1, [⟨none, none, 7⟩]⟩

/-- Second group of the composite-key collision pair: a different
(date, time, cluster) triple rendering to the same composite key. -/
def grpColY : ZoneGroup := ⟨some "d__t", some "x", some "Ca", 1, [⟨none, none, 8⟩]⟩

/-- A group whose date is missing (null). -/
def grpNullDate : ZoneGroup := ⟨none, some "08:00", some "Mutley", 1, [⟨none, none, 3⟩]⟩

/-- A Mutley group. -/
def grpMut : ZoneGroup := ⟨some "2025-12-24", some "08:00", some "Mutley", 2, [stopC0]⟩

/-- A Greenbank group: same date, time and cluster as the Mutley group. -/
def grpGrn : ZoneGroup := ⟨some "2025-12-24", some "08:00", some "Greenbank", 1, [stopC1]⟩

/-- A later-time group in its own cluster. -/
def grpLate : ZoneGroup := ⟨some "2025-12-24", some "17:00", some "Plympton", 1, [stopC2]⟩

/-! ## Claims -/

/-- Claim C1 (code bug witnessed at a concrete input): the shift-groups
assembly does not sort by the ISO date string; the comparator runs after
toDDMMYY reformatting, so it compares DD-MM-YY strings.  On two buckets
dated 2025-12-01 and 2025-11-02 at the same time, the output places the
December group first (its DD-MM-YY string "01-12-25" is smaller), while
the ISO strings compare the other way round, so the adjacent output pair
violates the claimed ISO ordering. -/
theorem C1_sort_on_formatted_dates_eval :
    (assembleShiftGroups zeroDist "inbound" [grpDec, grpNov]).map
        (fun r => r.pickupDateISO) = ["01-12-25", "02-11-25"]
    ∧ (assembleShiftGroups zeroDist "inbound" [grpDec, grpNov]).map
        (fun r => r.zones) = [["ZoneA"], ["ZoneB"]]
    ∧ strCmp "2025-11-02" "2025-12-01" = Ordering.lt := by
  refine ⟨by decide, by decide, by decide⟩

/-- Claim C2: optimiseRoute always returns a permutation of its input,
for every distance function (hence for the haversine instance), every
stop list (duplicates and coordinate-less stops included) and every
direction string. -/
theorem C2_sequence_permutation (dist : DistFn) (stops : List Stop) (direction : String) :
    (optimiseRoute dist stops direction).Perm stops :=
  optimiseRoute_perm dist stops direction

/-- Claim C3: on a list of stops all of which have numeric coordinates,
and for every nonnegative distance function (the haversine formula is
nonnegative), direction "inbound" produces exactly the spec walk seeded
at the first-encountered stop of maximum Hub distance and extended by
first-encountered nearest neighbours, and direction "outbound" produces
exactly the spec walk whose virtual start is the Hub. -/
theorem C3_greedy_characterisation (dist : DistFn)
    (h0 : ∀ a b c d, 0 ≤ dist a b c d) (stops : List Stop)
    (hc : ∀ s ∈ stops, hasCoords s = true) :
    optimiseRoute dist stops "inbound" = specInbound dist stops
      ∧ optimiseRoute dist stops "outbound" = specOutbound dist stops :=
  ⟨optimiseRoute_inbound_spec dist h0 stops hc,
   optimiseRoute_outbound_spec dist stops hc⟩

/-- Witness for C3 at a concrete nonnegative distance function and a
concrete all-coordinates stop list. -/
theorem C3_witness :
    optimiseRoute zeroDist [stopC0, stopC1, stopC2] "inbound"
        = specInbound zeroDist [stopC0, stopC1, stopC2]
      ∧ optimiseRoute zeroDist [stopC0, stopC1, stopC2] "outbound"
        = specOutbound zeroDist [stopC0, stopC1, stopC2] :=
  C3_greedy_characterisation zeroDist (fun _ _ _ _ => le_refl 0)
    [stopC0, stopC1, stopC2] (by decide)

/-- Claim C4 counterexample: on an input whose stops all lack
coordinates, the inbound seeding scan never updates and selects index 0,
so a coordinate-less stop IS selected as the inbound seed, contrary to
the claim that a coordinate-less stop is never selected as the seed for
every input list. -/
theorem C4_counterexample :
    maxIdxAux (distToHub zeroDist) [stopNC0, stopNC1] 0 0 (-1) = 0
      ∧ hasCoords stopNC0 = false
      ∧ optimiseRoute zeroDist [stopNC0, stopNC1] "inbound" = [stopNC0, stopNC1] := by
  refine ⟨by decide, by decide, by decide⟩

/-- Claim C4 as amended: provided at least one stop has both coordinates
(and the distance function is nonnegative, as haversine is), every stop
placed by a distance-based decision has coordinates: the output is a
coordinated prefix (in particular the inbound seed has coordinates)
followed by exactly the coordinate-less stops in their input order, and
every stop still appears in the output. -/
theorem C4_amended_coordinate_less (dist : DistFn)
    (h0 : ∀ a b c d, 0 ≤ dist a b c d) (stops : List Stop)
    (hex : ∃ s ∈ stops, hasCoords s = true) (direction : String) :
    ∃ front, optimiseRoute dist stops direction
        = front ++ stops.filter (fun s => !hasCoords s)
      ∧ front.Perm (stops.filter (fun s => hasCoords s))
      ∧ ∀ s ∈ front, hasCoords s = true := by
  rcases optimiseRoute_decomp dist h0 stops hex direction with ⟨front, heq, hperm⟩
  refine ⟨front, heq, hperm, ?_⟩
  intro s hs
  have : s ∈ stops.filter (fun s => hasCoords s) := hperm.subset hs
  exact (List.mem_filter.mp this).2

/-- Witness for C4 as amended: one coordinated and one coordinate-less
stop, inbound. -/
theorem C4_witness :
    ∃ front, optimiseRoute zeroDist [stopC0, stopNC1] "inbound"
        = front ++ [stopC0, stopNC1].filter (fun s => !hasCoords s)
      ∧ front.Perm ([stopC0, stopNC1].filter (fun s => hasCoords s))
      ∧ ∀ s ∈ front, hasCoords s = true :=
  C4_amended_coordinate_less zeroDist (fun _ _ _ _ => le_refl 0)
    [stopC0, stopNC1] (by decide) "inbound"

/-- Claim C5: the source clusterer getZoneClusterName coincides, on
every input string, with the clusterer described by the spec: trim; the
empty trimmed name maps to the literal unknown label; otherwise the
label of the first cluster with a case-insensitive alias match; and the
trimmed original-case name when no cluster matches. -/
theorem C5_cluster_label_spec (z : String) :
    getZoneClusterName z = specClusterLabel z := by
  unfold getZoneClusterName getZoneClusterNameWith specClusterLabel
  simp only [findClusterLabel_eq_find?]
  by_cases he : jsTrim z = ""
  · simp [he]
  · simp only [he, if_false]
    cases hf : ZONE_CLUSTERS.find?
        (fun c => c.zones.any (fun a => jsLower (jsTrim z) = jsLower a)) with
    | none => simp [hf]
    | some c => simp [hf]

/-- Claim C6 counterexample: clustering is not case-insensitive on zone
names that match no configured alias: such names are returned in their
original case, so two spellings of the same unmatched zone produce
different labels. -/
theorem C6_counterexample :
    getZoneClusterName "FOO" ≠ getZoneClusterName "foo" := by
  decide

/-- Claim C6 as amended: getZoneClusterName is deterministic (it is a
function), and on inputs whose trimmed form matches a configured alias
case-insensitively (or trims to empty), inputs equal up to letter case
receive the same cluster label; in particular MUTLEY and mutley map to
the same label.  Unmatched zone names are returned in original case, so
case-insensitivity does not extend to them. -/
theorem C6_amended_case_insensitive (z1 z2 : String)
    (h1 : jsLower (jsTrim z1) = jsLower (jsTrim z2))
    (h2 : findClusterLabel ZONE_CLUSTERS (jsLower (jsTrim z1)) ≠ none ∨ jsTrim z1 = "") :
    getZoneClusterName z1 = getZoneClusterName z2 := by
  by_cases he : jsTrim z1 = ""
  · have he2 : jsTrim z2 = "" := by
      apply (jsLower_eq_empty_iff _).mp
      rw [← h1, he]
      rfl
    unfold getZoneClusterName getZoneClusterNameWith
    simp [he, he2]
  · have he2 : jsTrim z2 ≠ "" := by
      intro hc
      apply he
      apply (jsLower_eq_empty_iff _).mp
      rw [h1, hc]
      rfl
    rcases h2 with hf | hempty
    · rcases Option.ne_none_iff_exists'.mp hf with ⟨lbl, hlbl⟩
      unfold getZoneClusterName getZoneClusterNameWith
      simp only [he, if_false, he2]
      rw [← h1, hlbl]
    · exact absurd hempty he

/-- Witness for C6 as amended: MUTLEY and mutley agree. -/
theorem C6_witness :
    getZoneClusterName "MUTLEY" = getZoneClusterName "mutley" :=
  C6_amended_case_insensitive "MUTLEY" "mutley" (by decide) (Or.inl (by decide))

/-- Claim C7 counterexample: a record whose date is missing is NOT
excluded from the output buckets: the aggregation loop has no skip (and
no skip counter); the null date renders into the composite key as the
text "null" and the record is bucketed normally, so its address appears
in an output bucket. -/
theorem C7_counterexample :
    (aggregate [grpNullDate]).length = 1
      ∧ bucketsAddrs (aggregate [grpNullDate]) = [⟨none, none, 3⟩] := by
  refine ⟨by decide, by decide⟩

/-- Claim C7 as amended: the aggregation is a total fold that never
drops a record: for every input, including records with missing date or
time, the multiset of addresses across the output buckets is exactly the
multiset of input addresses (missing fields are rendered into the bucket
key as the text "null" rather than triggering any skip). -/
theorem C7_amended_no_drop (gs : List ZoneGroup) :
    (bucketsAddrs (aggregate gs)).Perm (groupsAddrs gs) :=
  aggregate_addrs_perm gs

/-- Claim C8 counterexample: because the bucket key is the string
date ++ "__" ++ time ++ "__" ++ cluster, two groups with distinct
(date, time, cluster) triples can collide on the same key: ("d",
"t__x", "Ca") and ("d__t", "x", "Ca") merge into a single bucket, which
carries the first triple; no output bucket carries the second triple
even though its address was merged, contradicting the claim that each
group lands in a bucket keyed by its own triple. -/
theorem C8_counterexample :
    (aggregate [grpColX, grpColY]).length = 1
      ∧ rawTriple grpColX ≠ rawTriple grpColY
      ∧ ((aggregate [grpColX, grpColY]).all
          (fun b => decide (tripB b ≠ rawTriple grpColY))) = true
      ∧ (⟨none, none, 8⟩ : Stop) ∈ bucketsAddrs (aggregate [grpColX, grpColY]) := by
  refine ⟨by decide, by decide, by decide, by decide⟩

/-- Claim C8 as amended: provided the composite string keys are
injective on the input triples (as they are whenever dates, times and
cluster labels contain no "__"), the bucket triples of the output are
pairwise distinct, the output buckets hold exactly the input addresses
as a multiset, and every group lands in a bucket carrying exactly that
group's (date, time, cluster) triple and containing all its addresses. -/
theorem C8_amended_bucketing (gs : List ZoneGroup)
    (hinj : ∀ g1 ∈ gs, ∀ g2 ∈ gs, groupKey g1 = groupKey g2 → rawTriple g1 = rawTriple g2) :
    (aggregate gs).Pairwise (fun b1 b2 => tripB b1 ≠ tripB b2)
      ∧ (bucketsAddrs (aggregate gs)).Perm (groupsAddrs gs)
      ∧ ∀ g ∈ gs, ∃ b ∈ aggregate gs, tripB b = rawTriple g
          ∧ ∀ a ∈ g.addresses, a ∈ b.addresses :=
  ⟨aggregate_trip_pairwise gs, aggregate_addrs_perm gs, aggregate_lands gs hinj⟩

/-- Witness for C8 as amended: two groups sharing a (date, time,
cluster) triple through the Mutley/Greenbank cluster plus a third
distinct group. -/
theorem C8_witness :
    (aggregate [grpMut, grpGrn, grpLate]).Pairwise (fun b1 b2 => tripB b1 ≠ tripB b2)
      ∧ (bucketsAddrs (aggregate [grpMut, grpGrn, grpLate])).Perm
          (groupsAddrs [grpMut, grpGrn, grpLate])
      ∧ ∀ g ∈ [grpMut, grpGrn, grpLate],
          ∃ b ∈ aggregate [grpMut, grpGrn, grpLate], tripB b = rawTriple g
            ∧ ∀ a ∈ g.addresses, a ∈ b.addresses :=
  C8_amended_bucketing [grpMut, grpGrn, grpLate] (by decide)

/-- Claim C9 counterexample: a configuration in which the alias "a" is
claimed by two distinct clusters is consumed without any error (the
source performs no validation whatsoever on ZONE_CLUSTERS), and the
ambiguity is resolved silently at call time in favour of the first
cluster. -/
theorem C9_counterexample :
    getZoneClusterNameWith
        [⟨"L1", ["a"]⟩, ⟨"L2", ["a"]⟩] "a" = "L1" := by
  decide

/-- Claim C9 as amended: no load-time duplicate-alias check exists; when
an alias is claimed by two clusters the lookup silently returns the
label of the first cluster in configuration order at call time.  The
shipped ZONE_CLUSTERS configuration happens to contain no alias shared
between two clusters (it has a single cluster). -/
theorem C9_amended_silent_first_match (c1 c2 : ZoneCluster) (rest : List ZoneCluster)
    (z : String) (hne : jsTrim z ≠ "")
    (h1 : c1.zones.any (fun a => jsLower (jsTrim z) = jsLower a) = true) :
    getZoneClusterNameWith (c1 :: c2 :: rest) z = c1.label
      ∧ ZONE_CLUSTERS.Pairwise
          (fun a b => ∀ x ∈ a.zones, ∀ y ∈ b.zones, jsLower x ≠ jsLower y) := by
  constructor
  · unfold getZoneClusterNameWith findClusterLabel
    simp only [hne, if_false, h1, if_true]
  · decide

/-- Witness for C9 as amended: a two-cluster configuration both of whose
clusters claim the alias "a"; the lookup of "A" silently yields the
first label. -/
theorem C9_witness :
    getZoneClusterNameWith
        [⟨"First", ["a"]⟩, ⟨"Second", ["a"]⟩] "A" = "First"
      ∧ ZONE_CLUSTERS.Pairwise
          (fun a b => ∀ x ∈ a.zones, ∀ y ∈ b.zones, jsLower x ≠ jsLower y) :=
  C9_amended_silent_first_match ⟨"First", ["a"]⟩ ⟨"Second", ["a"]⟩ [] "A"
    (by decide) (by decide)

/-- Claim C10: every direction string other than exactly "inbound"
selects the outbound rule (the greedy walk starting from the Hub
position), and the omitted-argument default is "inbound", which selects
the furthest-stop seeding rule. -/
theorem C10_direction_dispatch (dist : DistFn) (stops : List Stop) (direction : String)
    (h : direction ≠ "inbound") :
    optimiseRoute dist stops direction = optimiseRoute dist stops "outbound"
      ∧ optimiseRouteDefault dist stops = optimiseRoute dist stops "inbound" := by
  refine ⟨?_, rfl⟩
  unfold optimiseRoute
  by_cases h1 : stops.length ≤ 1
  · simp [h1]
  · have hob : ¬(("outbound" : String) = "inbound") := by decide
    simp [h1, h, hob]

/-- Witness for C10 at the direction string "Inbound", which differs
from "inbound" only in case and is dispatched to the outbound rule. -/
theorem C10_witness :
    optimiseRoute zeroDist [stopC0, stopC1] "Inbound"
        = optimiseRoute zeroDist [stopC0, stopC1] "outbound"
      ∧ optimiseRouteDefault zeroDist [stopC0, stopC1]
        = optimiseRoute zeroDist [stopC0, stopC1] "inbound" :=
  C10_direction_dispatch zeroDist [stopC0, stopC1] "Inbound" (by decide)
